import Mathlib

/-!
# Verification of the psiaudio stimulus-queue and epoch-capture core

Shallow embedding of `src/psiaudio/pipeline.py` and `src/psiaudio/queue.py`.

Conventions used throughout:
* Sample buffers (numpy arrays with a trailing sample axis) are modelled as
  `List α` (one entry per position along the trailing axis; for N-D arrays an
  entry is a whole leading-axes column, so `α` is kept abstract where the code
  is generic and instantiated at `ℚ` for the queue, whose arrays are 1-D).
* Python `float` quantities (times in seconds, sampling rates) are modelled
  as `ℚ`; Python `int` quantities as `Int` (or `Nat` where the source can
  never produce a negative value).
* Fallible Python code (raised exceptions) returns `Except PyErr _`;
  potentially diverging loops take fuel and return `Option _`.
* Python's built-in `round` rounds half to even; `pyRound` models it.
-/

namespace Psiaudio

/-- Python's `round` on a real value: round half to even (banker's rounding),
as used in `int(round(x))` call sites of the source. -/
def pyRound (q : ℚ) : Int :=
  let f : Int := ⌊q⌋
  let r : ℚ := q - f
  if r < 1/2 then f
  else if 1/2 < r then f + 1
  else if f % 2 = 0 then f else f + 1

/-- Exceptions raised by the Python source. -/
inductive PyErr
  | queueEmpty
  | keyError (msg : String)
  | valueError (msg : String)
  | typeError (msg : String)
  | stopIteration
  | indexError
  | zeroDivision
deriving DecidableEq

/-! ## `pipeline.capture_epoch` (pipeline.py lines 17-57)

The auto-started coroutine holds `epoch_t0`, `epoch_samples` and
`accumulated_data` across `(yield)`s; we model it as an explicit state with a
step function for each received `(tlb, data)` chunk. -/

/-- The live state of one `capture_epoch` coroutine between two `(yield)`s:
the current target start `epoch_t0` (absolute samples), the number of samples
still needed `epoch_samples`, and the accumulated slices. -/
structure Cap (α : Type) where
  t0 : Int
  remaining : Nat
  acc : List (List α)
deriving DecidableEq

/-- Result of sending one chunk to a `capture_epoch` coroutine: it either
keeps waiting (`cont`), reports a missed epoch (the `callback` receives
`{'signal': None, ...}`) and stops, or completes with the concatenated
signal and stops. -/
inductive CapOut (α : Type)
  | cont (c : Cap α)
  | missed
  | complete (signal : List α)
deriving DecidableEq

/-- One loop iteration of `capture_epoch` upon receiving `(tlb, data)`.
`i` and `d` are nonnegative in the guarded branch (`tlb ≤ t0` and
`t0 ≤ tlb + samples`), so the `Int.toNat` coercions agree with the Python
ints there. -/
def capStep {α : Type} (c : Cap α) (tlb : Int) (data : List α) : CapOut α :=
  let samples : Int := data.length
  if c.t0 < tlb then
    .missed
  else if c.t0 ≤ tlb + samples then
    let i : Nat := (c.t0 - tlb).toNat
    let d : Nat := min c.remaining (data.length - i)
    let acc := c.acc ++ [(data.drop i).take d]
    let rem := c.remaining - d
    if rem = 0 then .complete acc.flatten
    else .cont ⟨c.t0 + d, rem, acc⟩
  else
    .cont c

/-- Feeding a list of chunks in order to one capture coroutine, as
`extract_epochs` does (backfill over `prior_samples` followed by live
chunks). Once the coroutine has terminated the remaining chunks are not
sent (the coroutine is removed from `epoch_coroutines`). -/
def capRun {α : Type} (c : Cap α) : List (Int × List α) → CapOut α
  | [] => .cont c
  | (tlb, data) :: rest =>
    match capStep c tlb data with
    | .cont c' => capRun c' rest
    | .missed => .missed
    | .complete s => .complete s

/-- The chunk stream obtained by delivering the pieces `ps` consecutively
starting at absolute sample `tlb`. -/
def chunksOf {α : Type} (tlb : Int) : List (List α) → List (Int × List α)
  | [] => []
  | p :: ps => (tlb, p) :: chunksOf (tlb + p.length) ps

/-- Outcome equivalence for capture runs: identical terminal outcome, and for
still-running coroutines the same target start, the same residual need and
the same accumulated samples (the accumulated slices may be partitioned
differently, e.g. by interspersed empty slices at chunk boundaries). -/
def CapOut.equiv {α : Type} : CapOut α → CapOut α → Prop
  | .missed, .missed => True
  | .complete s, .complete t => s = t
  | .cont c, .cont d => c.t0 = d.t0 ∧ c.remaining = d.remaining ∧ c.acc.flatten = d.acc.flatten
  | _, _ => False

/-! ## `pipeline.extract_epochs` lookback-buffer bookkeeping
(pipeline.py lines 68, 73, 87, 154, 162-170)

Only the `tlb` counter and the `prior_samples` cache are read or written by
the pruning logic, so the model projects the extractor state to those two
fields. -/

/-- The chunk cache of `extract_epochs`: the absolute sample count acquired
so far (`tlb`) and the cached `(tlb, data)` chunks (`prior_samples`). -/
structure ExState (α : Type) where
  tlb : Int
  prior : List (Int × List α)
deriving DecidableEq

/-- The quantity `oldest_samples[0] + oldest_samples[1].shape[-1]` — one past the last
sample index of a cached chunk (`tub` in the source). -/
def chunkEnd {α : Type} (c : Int × List α) : Int := c.1 + c.2.length

/-- The `while True` pruning loop at the end of each `extract_epochs`
iteration: drop cached chunks from the front while the head's end is older
than `tlb - buffer_samples`. Reading `prior_samples[0]` on an empty cache
would raise `IndexError`, modelled as `none`. -/
def pruneLoop {α : Type} (bufferSamples tlb : Int) :
    List (Int × List α) → Option (List (Int × List α))
  | [] => none
  | c :: rest =>
    if chunkEnd c < tlb - bufferSamples then pruneLoop bufferSamples tlb rest
    else some (c :: rest)

/-- One `extract_epochs` loop iteration, restricted to the state the pruning
invariant concerns: cache the new chunk, advance `tlb` by its sample count,
then prune the cache. -/
def exStep {α : Type} (bufferSamples : Int) (s : ExState α) (data : List α) :
    Option (ExState α) :=
  let prior := s.prior ++ [(s.tlb, data)]
  let tlb := s.tlb + data.length
  (pruneLoop bufferSamples tlb prior).map (fun p => ⟨tlb, p⟩)

/-- Driving `extract_epochs` with successive data chunks from its initial
state (`tlb = 0`, empty cache). -/
def exRun {α : Type} (bufferSamples : Int) (s : ExState α) :
    List (List α) → Option (ExState α)
  | [] => some s
  | d :: ds =>
    match exStep bufferSamples s d with
    | none => none
    | some s' => exRun bufferSamples s' ds

/-- Feeding first `a`, then `b` starting where `a` ended. -/
def capStep2 {α : Type} (c : Cap α) (tlb : Int) (a b : List α) : CapOut α :=
  match capStep c tlb a with
  | .cont c' => capStep c' (tlb + a.length) b
  | o => o

/-- The pruning invariant of `extract_epochs`: cached chunk ends are
nondecreasing, no cached chunk ends past the current `tlb`, and no cached
chunk ends before `tlb - buffer_samples`. -/
def ExInv {α : Type} (B : Int) (s : ExState α) : Prop :=
  List.Pairwise (· ≤ ·) (s.prior.map chunkEnd) ∧
  (∀ c ∈ s.prior, chunkEnd c ≤ s.tlb) ∧
  (∀ c ∈ s.prior, s.tlb - B ≤ chunkEnd c)

/-! ## `queue.py`: the stimulus queue

Conventions for the queue model:
* Waveform sources are prebuilt numpy arrays, modelled as `List ℚ`
  (class-based generator producers are external collaborators of this
  repository and are not present under `src/`; the queue probes for them via
  `reset()` and falls back to array mode, which is the mode modelled here).
* `uuid.uuid4()` draws a fresh opaque key; modelled by a counter in the
  state.
* `np.random` draws are external randomness; they are injected as an oracle
  sequence carried by the policy state (`random` keeps the future index
  draws, `BlockedRandom` the future shuffled permutations).
* The notifier callbacks registered via `connect` are modelled by an event
  log: `_notify(event, info)` appends one entry.
* Exceptions abort an operation; the model returns the error and drops the
  partially mutated state (no claim below observes a post-exception state).
-/

instance {ε α : Type} [DecidableEq ε] [DecidableEq α] : DecidableEq (Except ε α) :=
  fun a b =>
    match a, b with
    | .ok x, .ok y => if h : x = y then .isTrue (by rw [h]) else .isFalse (by simp [h])
    | .error e, .error f =>
      if h : e = f then .isTrue (by rw [h]) else .isFalse (by simp [h])
    | .ok _, .error _ => .isFalse (by simp)
    | .error _, .ok _ => .isFalse (by simp)

/-- A token's `delays` after `as_iterator`: either an endless cycle of one
scalar delay (`itertools.cycle([x])`) or a finite iterator over a sequence
(`iter(x)`), which raises `StopIteration` when exhausted. -/
inductive Delays
  | cyc (q : ℚ)
  | seq (l : List ℚ)
deriving DecidableEq

/-- Models `as_iterator`: `None` becomes the scalar 0, scalars are cycled,
sequences are iterated through once. -/
def asIterator : Option (ℚ ⊕ List ℚ) → Delays
  | none => .cyc 0
  | some (.inl q) => .cyc q
  | some (.inr l) => .seq l

/-- Calling `next(...)` on the delays iterator. -/
def Delays.next : Delays → Except PyErr (ℚ × Delays)
  | .cyc q => .ok (q, .cyc q)
  | .seq [] => .error .stopIteration
  | .seq (d :: ds) => .ok (d, .seq ds)

/-- One entry of `AbstractSignalQueue._data`. -/
structure Token where
  source : List ℚ
  trials : Int
  requestedTrials : Int
  delays : Delays
  duration : ℚ
  metadata : Option Nat
deriving DecidableEq

/-- The `info` record built by `next_trial` and handed to `added`/`removed`
notifiers and to `self._generated`. -/
structure TrialRec where
  t0 : ℚ
  duration : ℚ
  key : Nat
  metadata : Option Nat
  decrement : Bool
deriving DecidableEq

/-- One notifier callback invocation. -/
inductive Event
  | added (r : TrialRec)
  | removed (r : TrialRec)
  | decrementEv (key : Nat)
deriving DecidableEq

/-- Policy-specific state of the ordering subclasses:
`FIFOSignalQueue`, `InterleavedFIFOSignalQueue` (cursor `_i`, `_complete`),
`GroupedFIFOSignalQueue` (`_group_size`, cursor; `BlockedFIFOSignalQueue`
is the `autoGroup := true` variant whose `append` grows the group),
`RandomSignalQueue` (injected index draws), and `BlockedRandomSignalQueue`
(pending block `_i`, `_complete`, injected shuffled permutations). -/
inductive Policy
  | fifo
  | interleaved (i : Int) (complete : Bool)
  | grouped (groupSize : Nat) (i : Int) (autoGroup : Bool)
  | random (draws : List Nat)
  | blockedRandom (pend : List Nat) (complete : Bool) (oracle : List (List Nat))
deriving DecidableEq

/-- The state of an `AbstractSignalQueue` (plus its subclass fields). -/
structure QState where
  fs : ℚ
  delaySamples : Int
  data : List (Nat × Token)
  ordering : List Nat
  source : Option (List ℚ)
  samples : Int
  paused : Bool
  empty : Bool
  t0q : ℚ
  generated : List TrialRec
  log : List Event
  nextId : Nat
  policy : Policy
deriving DecidableEq

/-- Reading `self._data[key]` as a lookup (a Python dict keyed by uuid). -/
def dictGet (d : List (Nat × Token)) (k : Nat) : Option Token :=
  match d with
  | [] => none
  | (k', t) :: rest => if k' = k then some t else dictGet rest k

/-- In-place mutation of one entry of `self._data` (no-op when the key is
absent; `_data` never deletes entries, so call sites always find the key). -/
def dictSet (d : List (Nat × Token)) (k : Nat) (f : Token → Token) :
    List (Nat × Token) :=
  d.map (fun kt => if kt.1 = k then (kt.1, f kt.2) else kt)

/-- Models `self._notify(event, info)`: invoke the registered callbacks, modelled
as appending to the event log. -/
def notifyEv (s : QState) (e : Event) : QState := { s with log := s.log ++ [e] }

/-- Models `is_empty()`. -/
def isEmpty (s : QState) : Bool := s.empty

/-- The absolute time `self._t0 + self._samples / self._fs` at which the
next generated sample will play (used for `info['t0']`). -/
def curT0 (s : QState) : ℚ := s.t0q + (s.samples : ℚ) / s.fs

/-- Models `next_key()` of each ordering policy.  `%` on a nonpositive length
raises `ZeroDivisionError` in Python; an out-of-range index raises
`IndexError`.  `np.random.randint(0, n)` / `rng.shuffle` draws come from
the injected oracle (`% len` keeps the model total; real draws are always
in range). -/
def nextKey (s : QState) : Except PyErr (Nat × QState) :=
  match s.policy with
  | .fifo =>
    match s.ordering with
    | [] => .error .queueEmpty
    | k :: _ => .ok (k, s)
  | .interleaved i complete =>
    if complete then .error .queueEmpty
    else if s.ordering.length = 0 then .error .zeroDivision
    else
      let i' := (i + 1) % (s.ordering.length : Int)
      .ok (s.ordering.getD i'.toNat 0, { s with policy := .interleaved i' complete })
  | .grouped gs i auto =>
    match s.ordering with
    | [] => .error .queueEmpty
    | _ =>
      if gs = 0 then .error .zeroDivision
      else
        let i' := (i + 1) % (gs : Int)
        if h : i'.toNat < s.ordering.length then
          .ok (s.ordering.get ⟨i'.toNat, h⟩, { s with policy := .grouped gs i' auto })
        else .error .indexError
  | .random draws =>
    match s.ordering with
    | [] => .error .queueEmpty
    | _ =>
      let i := draws.headD 0 % s.ordering.length
      .ok (s.ordering.getD i 0, { s with policy := .random draws.tail })
  | .blockedRandom pend complete oracle =>
    if complete then .error .queueEmpty
    else
      let pend' := if pend.isEmpty then oracle.headD (List.range s.ordering.length)
                   else pend
      let oracle' := if pend.isEmpty then oracle.tail else oracle
      match pend'.getLast? with
      | none => .error .indexError
      | some i =>
        if h : i < s.ordering.length then
          .ok (s.ordering.get ⟨i, h⟩,
            { s with policy := .blockedRandom pend'.dropLast complete oracle' })
        else .error .indexError

/-- Models `remove_key(key)`: `self._ordering.remove(key)` removes the first
occurrence, raising `ValueError` when absent. -/
def removeKey (s : QState) (k : Nat) : Except PyErr QState :=
  if k ∈ s.ordering then .ok { s with ordering := s.ordering.erase k }
  else .error (.valueError "x not in list")

/-- The grouped policy's `for key in self._ordering[:gs]` check: stop at
the first key with `trials > 0`; a missing key raises `KeyError` when
reached. -/
def anyTrialsPositive (s : QState) (ks : List Nat) : Except PyErr Bool :=
  match ks with
  | [] => .ok false
  | k :: rest =>
    match dictGet s.data k with
    | none => .error (.keyError "key missing from data")
    | some t => if t.trials > 0 then .ok true else anyTrialsPositive s rest

/-- Marks `InterleavedFIFOSignalQueue._complete` /
`BlockedRandomSignalQueue._complete`. -/
def setComplete (s : QState) : QState :=
  { s with policy :=
      match s.policy with
      | .interleaved i _ => .interleaved i true
      | .blockedRandom p _ o => .blockedRandom p true o
      | p => p }

/-- Models `decrement_key(key, n)`, dispatching on the subclass.
The default (`AbstractSignalQueue`) version removes an exhausted key from
the ordering and notifies `decrement` otherwise; the interleaved version
(shared by `BlockedRandomSignalQueue`) only marks the queue complete once
every token is exhausted; the grouped version removes the entire leading
group once it is exhausted.  All raise `KeyError` when the key is not in
the ordering. -/
def decrementKey (s : QState) (key : Nat) (n : Int) :
    Except PyErr (Bool × QState) :=
  match s.policy with
  | .interleaved _ _ | .blockedRandom _ _ _ =>
    if key ∈ s.ordering then
      match dictGet s.data key with
      | none => .error (.keyError "key missing from data")
      | some _ =>
        let d1 := dictSet s.data key (fun t => { t with trials := t.trials - n })
        let s1 := { s with data := d1 }
        if s1.data.any (fun kt => kt.2.trials > 0) then .ok (false, s1)
        else .ok (true, setComplete s1)
    else .error (.keyError "not in queue")
  | .grouped gs _ _ =>
    if key ∈ s.ordering then
      match dictGet s.data key with
      | none => .error (.keyError "key missing from data")
      | some _ =>
        let d1 := dictSet s.data key (fun t => { t with trials := t.trials - n })
        let s1 := { s with data := d1 }
        let grp := s1.ordering.take gs
        match anyTrialsPositive s1 grp with
        | .error e => .error e
        | .ok true => .ok (false, s1)
        | .ok false => .ok (true, { s1 with ordering := grp.foldl (·.erase ·) s1.ordering })
    else .error (.keyError "not in queue")
  | _ =>
    if key ∈ s.ordering then
      match dictGet s.data key with
      | none => .error (.keyError "key missing from data")
      | some tok =>
        let d1 := dictSet s.data key (fun t => { t with trials := t.trials - n })
        let s1 := { s with data := d1 }
        if tok.trials - n ≤ 0 then
          (removeKey s1 key).map (fun s2 => (true, s2))
        else .ok (false, notifyEv s1 (.decrementEv key))
    else .error (.keyError "not in queue")

/-- Models `pop_key(key, decrement)`: look the token up (`KeyError` when absent),
optionally decrement, and return the token's data. -/
def popKey (s : QState) (key : Nat) (decrement : Bool) :
    Except PyErr (Token × QState) :=
  match dictGet s.data key with
  | none => .error (.keyError "key missing from data")
  | some tok =>
    if decrement then (decrementKey s key 1).map (fun p => (tok, p.2))
    else .ok (tok, s)

/-- Models `next_trial(decrement)`: select the next key, pop its token, install its
source (array mode), pull the next intertrial delay, convert it to samples
(raising on a negative result), record and announce the `TrialRec`. -/
def nextTrial (s : QState) (decrement : Bool) : Except PyErr QState := do
  let (key, s1) ← nextKey s
  let (tok, s2) ← popKey s1 key decrement
  let s3 := { s2 with source := some tok.source }
  let (delay, delays') ← tok.delays.next
  let s4 := { s3 with data := dictSet s3.data key (fun t => { t with delays := delays' }) }
  let ds := pyRound (delay * s4.fs)
  let s5 := { s4 with delaySamples := ds }
  if ds < 0 then
    .error (.valueError "Invalid option for delay samples")
  else
    let info : TrialRec := ⟨curT0 s5, tok.duration, key, tok.metadata, decrement⟩
    .ok (notifyEv { s5 with generated := s5.generated ++ [info] } (.added info))

/-- Models `_pop_buffer(samples, decrement)`: one inner step of `pop_buffer`.
Precedence: paused silence, current source (array read
`_get_samples_waveform`), intertrial delay silence, otherwise set up the
next trial and return an empty array. -/
def popStep (s : QState) (n : Nat) (decrement : Bool) :
    Except PyErr (List ℚ × QState) :=
  if s.paused then .ok (List.replicate n 0, s)
  else
    match s.source with
    | some src =>
      if src.length < n then .ok (src, { s with source := none })
      else .ok (src.take n, { s with source := some (src.drop n) })
    | none =>
      if s.delaySamples > 0 then
        let k := min s.delaySamples (n : Int)
        .ok (List.replicate k.toNat 0, { s with delaySamples := s.delaySamples - k })
      else
        (nextTrial s decrement).map (fun s' => ([], s'))

/-- The `while samples > 0` loop of `pop_buffer`: accumulate inner-step
waveforms, catching `QueueEmptyError` by padding the remainder with zeros
and latching `_empty`.  Other exceptions propagate.  The loop need not
terminate (e.g. an endless supply of zero-length sources with zero delay),
so it takes fuel. -/
def popBufferLoop (fuel : Nat) (s : QState) (n : Nat) (decrement : Bool) :
    Option (Except PyErr (List ℚ × QState)) :=
  match fuel with
  | 0 => none
  | fuel + 1 =>
    if n = 0 then some (.ok ([], s))
    else
      match popStep s n decrement with
      | .error .queueEmpty =>
        some (.ok (List.replicate n 0,
          { s with empty := true, samples := s.samples + n }))
      | .error e => some (.error e)
      | .ok (w, s') =>
        match popBufferLoop fuel { s' with samples := s'.samples + w.length }
            (n - w.length) decrement with
        | none => none
        | some (.error e) => some (.error e)
        | some (.ok (ws, s'')) => some (.ok (w ++ ws, s''))

/-- Models `pop_buffer(samples, decrement)`.  With `samples = 0` the loop body
never runs and `np.concatenate([])` raises `ValueError`. -/
def popBuffer (fuel : Nat) (s : QState) (n : Nat) (decrement : Bool) :
    Option (Except PyErr (List ℚ × QState)) :=
  if n = 0 then some (.error (.valueError "need at least one array to concatenate"))
  else popBufferLoop fuel s n decrement

/-- A dispatch session: a sequence of `pop_buffer` requests. -/
def runPops (fuel : Nat) (s : QState) :
    List Nat → Option (Except PyErr (List (List ℚ) × QState))
  | [] => some (.ok ([], s))
  | n :: ns =>
    match popBuffer fuel s n true with
    | none => none
    | some (.error e) => some (.error e)
    | some (.ok (b, s')) =>
      match runPops fuel s' ns with
      | none => none
      | some (.error e) => some (.error e)
      | some (.ok (bs, s'')) => some (.ok (b :: bs, s''))

/-! ### Queue mutation operations -/

/-- Models `_add_source(source, trials, delays, duration, metadata)`: draw a fresh
key, derive the duration from the array length when absent, store the token.
Returns the key and the updated state. -/
def addSource (s : QState) (source : List ℚ) (trials : Int)
    (delays : Option (ℚ ⊕ List ℚ)) (duration : Option ℚ) (metadata : Option Nat) :
    Nat × QState :=
  let key := s.nextId
  let dur := match duration with
    | some d => d
    | none => (source.length : ℚ) / s.fs
  let tok : Token := ⟨source, trials, trials, asIterator delays, dur, metadata⟩
  (key, { s with data := s.data ++ [(key, tok)], nextId := key + 1 })

/-- Models `append(...)`: add the token and append its key to the ordering.
`BlockedFIFOSignalQueue.append` additionally grows `_group_size` by one. -/
def appendQ (s : QState) (source : List ℚ) (trials : Int)
    (delays : Option (ℚ ⊕ List ℚ)) (duration : Option ℚ) (metadata : Option Nat) :
    Nat × QState :=
  let s0 := match s.policy with
    | .grouped gs i true => { s with policy := .grouped (gs + 1) i true }
    | _ => s
  let (k, s1) := addSource s0 source trials delays duration metadata
  (k, { s1 with ordering := s1.ordering ++ [k] })

/-- The method `insert(...)` calls `self._ordering.insert(k)`.  Python's `list.insert`
requires two positional arguments (an index and the value); the source
passes only the value, so the call raises
`TypeError: insert expected 2 arguments, got 1` on every invocation (after
`_add_source` has already stored the token in `_data`). -/
def insertQ (s : QState) (source : List ℚ) (trials : Int)
    (delays : Option (ℚ ⊕ List ℚ)) (duration : Option ℚ) (metadata : Option Nat) :
    Except PyErr (Nat × QState) :=
  let _ := addSource s source trials delays duration metadata
  .error (.typeError "insert expected 2 arguments, got 1")

/-- Modelled from the spec: the intended `insert` ("prepends to ordering"),
per the spec's resolution of the broken `self._ordering.insert(k)` call; the
code under `src/` raises `TypeError` instead (see `insertQ`). -/
def insertSpec (s : QState) (source : List ℚ) (trials : Int)
    (delays : Option (ℚ ⊕ List ℚ)) (duration : Option ℚ) (metadata : Option Nat) :
    Nat × QState :=
  let (k, s1) := addSource s source trials delays duration metadata
  (k, { s1 with ordering := k :: s1.ordering })

/-! ### `extend` and the `str.format` size-mismatch message (C9)

`extend` validates each parameter with
`base_err = '{param} must be a scalar or a sequence of length {n}'` and
`base_err.format(<param-name>, n)`.  `str.format` resolves replacement
fields in order; a named field (`param`, `n`) must be supplied as a keyword
argument, and raises `KeyError` for the first missing name.  The call passes
only positional arguments, so the intended `ValueError` is never reached. -/

/-- A replacement field of a Python format string. -/
inductive FmtField
  | lit (s : String)
  | pos (i : Nat)
  | named (nm : String)

/-- Models `str.format` field resolution with positional arguments `ps` and keyword
arguments `ks`. -/
def pyFormat : List FmtField → List String → List (String × String) →
    Except PyErr String
  | [], _, _ => .ok ""
  | .lit t :: rest, ps, ks => (pyFormat rest ps ks).map (t ++ ·)
  | .pos i :: rest, ps, ks =>
    match ps.get? i with
    | none => .error .indexError
    | some v => (pyFormat rest ps ks).map (v ++ ·)
  | .named nm :: rest, ps, ks =>
    match ks.lookup nm with
    | none => .error (.keyError nm)
    | some v => (pyFormat rest ps ks).map (v ++ ·)

/-- The fields of `base_err`: a `param` named field, literal text, and an
`n` named field. -/
def baseErrFields : List FmtField :=
  [.named "param", .lit " must be a scalar or a sequence of length ", .named "n"]

/-- Models `base_err.format(param, n)` as called in `extend`: both arguments are
positional. -/
def baseErrFormat (param : String) (n : Nat) : Except PyErr String :=
  pyFormat baseErrFields [param, toString n] []

/-- A parameter of `extend`: either a scalar (cycled with
`itertools.cycle`) or a sequence (`np.iterable`). -/
inductive SoS (α : Type)
  | scalar (a : α)
  | seq (l : List α)

/-- The scalar-or-sequence broadcasting of one `extend` parameter against
`n = len(sources)`: sequences must have length `n` (otherwise
`raise ValueError(base_err.format(param, n))`, whose message formatting
itself raises first); scalars are cycled, which the bounded `zip` truncates
to `n` repetitions. -/
def resolveSoS {α : Type} (param : String) (n : Nat) (x : SoS α) :
    Except PyErr (List α) :=
  match x with
  | .scalar a => .ok (List.replicate n a)
  | .seq l =>
    if l.length ≠ n then
      match baseErrFormat param n with
      | .ok msg => .error (.valueError msg)
      | .error e => .error e
    else .ok l

/-- The `for args in zip(...)` loop of `extend`: `append` each source with
its broadcast parameters, collecting the keys. -/
def appendMany (s : QState) :
    List (List ℚ × Int × Option (ℚ ⊕ List ℚ) × Option ℚ × Option Nat) →
    List Nat × QState
  | [] => ([], s)
  | (src, tr, de, du, me) :: rest =>
    let (k, s1) := appendQ s src tr de du me
    let (ks, s2) := appendMany s1 rest
    (k :: ks, s2)

/-- Models `extend(sources, trials, delays, duration, metadata)`. -/
def extendQ (s : QState) (sources : List (List ℚ)) (trials : SoS Int)
    (delays : SoS (Option (ℚ ⊕ List ℚ))) (duration : SoS (Option ℚ))
    (metadata : SoS (Option Nat)) : Except PyErr (List Nat × QState) := do
  let n := sources.length
  let ts ← resolveSoS "trials" n trials
  let ds ← resolveSoS "delays" n delays
  let us ← resolveSoS "duration" n duration
  let ms ← resolveSoS "metadata" n metadata
  .ok (appendMany s (sources.zip (ts.zip (ds.zip (us.zip ms)))))

/-! ### Pause / cancel / requeue / rewind / resume -/

/-- Models `rewind_samples(t)`: reset `_samples` to `round(t*fs) - round(t0*fs)`,
refusing to move forward past the last generated sample. -/
def rewindSamples (s : QState) (t : ℚ) : Except PyErr QState :=
  let tS := pyRound (t * s.fs)
  let t0S := pyRound (s.t0q * s.fs)
  if tS - t0S > s.samples then
    .error (.valueError "Cannot rewind past last sample generated")
  else .ok { s with samples := tS - t0S }

/-- Models `cancel(t, delay=0)`: notify `removed` for every generated record still
playing at `t` (in reverse order of generation); if a source is active, undo
the automatic decrement of the most recent record's key and drop the
source; finally set the intertrial delay.  (`self._generated[-1]` raises
`IndexError` when nothing was generated.) -/
def cancel (s : QState) (t : ℚ) (delay : ℚ) : Except PyErr QState :=
  let removedRecs := (s.generated.reverse.filter (fun r => r.t0 + r.duration > t))
  let s1 := { s with log := s.log ++ removedRecs.map Event.removed }
  match s1.source with
  | some _ =>
    match s1.generated.getLast? with
    | none => .error .indexError
    | some info =>
      let undo := dictSet s1.data info.key (fun tok => { tok with trials := tok.trials + 1 })
      let s2 := if info.decrement then { s1 with data := undo } else s1
      let s3 := { s2 with source := none }
      .ok { s3 with delaySamples := pyRound (delay * s3.fs) }
  | none => .ok { s1 with delaySamples := pyRound (delay * s1.fs) }

/-- Models `requeue(t)`: for every generated record still playing at `t` whose
counter was auto-decremented, reinsert its key at the front of the ordering
when absent and add one trial back per occurrence (the source computes the
per-key counts with `Counter`; adding one per record is equivalent). -/
def requeue (s : QState) (t : ℚ) : QState :=
  let toRequeue := ((s.generated.reverse.filter
      (fun r => r.t0 + r.duration > t)).filter (fun r => r.decrement)).map
      (fun r => r.key)
  let ord := toRequeue.foldl (fun o k => if k ∈ o then o else k :: o) s.ordering
  let d := toRequeue.foldl
      (fun d k => dictSet d k (fun tok => { tok with trials := tok.trials + 1 })) s.data
  { s with ordering := ord, data := d }

/-- Models `pause(t=None)`: set the paused flag and, when a time is given, cancel,
requeue and rewind to it. -/
def pause (s : QState) (t : Option ℚ) : Except PyErr QState :=
  let s1 := { s with paused := true }
  match t with
  | none => .ok s1
  | some t => do
    let s2 ← cancel s1 t 0
    rewindSamples (requeue s2 t) t

/-- Models `resume(t=None)`: optionally rewind, then clear the paused flag. -/
def resumeQ (s : QState) (t : Option ℚ) : Except PyErr QState :=
  match t with
  | none => .ok { s with paused := false }
  | some t => (rewindSamples s t).map (fun s' => { s' with paused := false })

/-- A one-token FIFO queue at `fs = 1`: a 2-sample source, one trial, no
intertrial delay. -/
def c1Ex : QState :=
  ⟨1, 0, [(0, ⟨[5, 6], 1, 1, .cyc 0, 2, none⟩)], [0], none, 0, false, false,
    0, [], [], 1, .fifo⟩

/-- The state after the session `pop_buffer(3); pop_buffer(2)` on `c1Ex`:
the trial plays out (samples 5, 6), the queue runs empty and pads with
silence, latching `_empty`. -/
def c1ExFinal : QState :=
  ⟨1, 0, [(0, ⟨[5, 6], 0, 1, .cyc 0, 2, none⟩)], [], none, 5, false, true,
    0, [⟨0, 2, 0, none, true⟩], [.added ⟨0, 2, 0, none, true⟩], 1, .fifo⟩

/-- An exhausted FIFO queue mid-session (7 samples already emitted). -/
def c5Ex : QState :=
  ⟨1, 0, [], [], none, 7, false, false, 0, [], [], 0, .fifo⟩

/-! ### C6: completion semantics of the interleaved FIFO policy -/

/-- An `InterleavedFIFOSignalQueue` holding a single token queued with
`trials = 0`, never decremented: `_complete` is still false. -/
def c6State : QState :=
  ⟨1, 0, [(0, ⟨[1], 0, 0, .cyc 0, 1, none⟩)], [0], none, 0, false, false, 0,
    [], [], 1, .interleaved (-1) false⟩

/-! ### C9: `extend`'s size-mismatch error message formatting raises -/

/-- A fresh FIFO queue at `fs = 1`. -/
def emptyQ : QState := ⟨1, 0, [], [], none, 0, false, false, 0, [], [], 0, .fifo⟩

/-- A FIFO queue holding one token with a single remaining trial. -/
def c10State : QState :=
  ⟨1, 0, [(5, ⟨[1], 1, 1, .cyc 0, 1, none⟩)], [5], none, 0, false, false, 0,
    [], [], 6, .fifo⟩

/-! ### C7: ordering of TrialRecord `t0` values -/

/-- The `t0` values of the TrialRecords announced via `added`, in emission
order. -/
def addedT0s (log : List Event) : List ℚ :=
  log.filterMap (fun e => match e with | .added r => some r.t0 | _ => none)

/-- A FIFO queue at `fs = 1` holding one token: a 2-sample source, three
trials, no intertrial delay, duration 2 s. -/
def c7Start : QState :=
  ⟨1, 0, [(0, ⟨[7, 8], 3, 3, .cyc 0, 2, none⟩)], [0], none, 0, false, false, 0,
    [], [], 1, .fifo⟩

/-- The session `pop_buffer(2); pop_buffer(1); pause(1.0); resume();
pop_buffer(1)` on `c7Start`, returning the `added` records' `t0`s. -/
def c7Session : Option (List ℚ) :=
  match popBuffer 10 c7Start 2 true with
  | some (.ok (_, s1)) =>
    match popBuffer 10 s1 1 true with
    | some (.ok (_, s2)) =>
      match pause s2 (some 1) with
      | .ok s3 =>
        match resumeQ s3 none with
        | .ok s4 =>
          match popBuffer 10 s4 1 true with
          | some (.ok (_, s5)) => some (addedT0s s5.log)
          | _ => none
        | _ => none
      | _ => none
    | _ => none
  | _ => none

/-- Does the dispatch engine hold a source that will still yield at least
one sample? -/
def hasLiveSource (s : QState) : Bool :=
  match s.source with
  | some src => !src.isEmpty
  | none => false

/-- The monotonicity invariant for trial dispatch without rewinds: positive
sampling rate, every stored token has a nonempty source, the announced
`t0`s are strictly increasing, and each announced `t0` lies strictly below
the current dispatch time — except possibly the most recent one, which may
sit exactly at the current time while its trial's samples (or intertrial
delay) are still pending. -/
def C7Inv (s : QState) : Prop :=
  0 < s.fs ∧
  (∀ kt ∈ s.data, kt.2.source ≠ []) ∧
  List.Chain' (· < ·) (addedT0s s.log) ∧
  (∀ x ∈ addedT0s s.log,
    x < curT0 s ∨ (x = curT0 s ∧ (hasLiveSource s = true ∨ 0 < s.delaySamples)))

/-- The state after `pop_buffer(2)` on `c7Start`. -/
def c7WFinal : QState :=
  ⟨1, 0, [(0, ⟨[7, 8], 2, 3, .cyc 0, 2, none⟩)], [0], some [], 2, false, false,
    0, [⟨0, 2, 0, none, true⟩], [.decrementEv 0, .added ⟨0, 2, 0, none, true⟩],
    1, .fifo⟩

@[simp] theorem addedT0s_nil : addedT0s [] = [] := rfl

@[simp] theorem addedT0s_append (l1 l2 : List Event) :
    addedT0s (l1 ++ l2) = addedT0s l1 ++ addedT0s l2 :=
  List.filterMap_append l1 l2 _

@[simp] theorem addedT0s_added (r : TrialRec) : addedT0s [.added r] = [r.t0] := rfl

@[simp] theorem addedT0s_decrement (k : Nat) : addedT0s [.decrementEv k] = [] := rfl

@[simp] theorem addedT0s_removed (r : TrialRec) : addedT0s [.removed r] = [] := rfl

theorem pyRound_intCast (n : Int) : pyRound (n : ℚ) = n := by
  simp [pyRound]

theorem pyRound_nonneg {q : ℚ} (h : 0 ≤ q) : 0 ≤ pyRound q := by
  have hf : (0 : Int) ≤ ⌊q⌋ := Int.floor_nonneg.mpr h
  unfold pyRound
  dsimp only
  split
  · exact hf
  · split
    · omega
    · split
      · exact hf
      · omega

theorem capRun_nil {α : Type} (c : Cap α) : capRun c [] = .cont c := rfl

theorem capRun_cons {α : Type} (c : Cap α) (tlb : Int) (data : List α)
    (rest : List (Int × List α)) :
    capRun c ((tlb, data) :: rest) =
      match capStep c tlb data with
      | .cont c' => capRun c' rest
      | .missed => .missed
      | .complete s => .complete s := rfl

theorem chunksOf_cons {α : Type} (tlb : Int) (p : List α) (ps : List (List α)) :
    chunksOf tlb (p :: ps) = (tlb, p) :: chunksOf (tlb + p.length) ps := rfl

/-! ### Closed forms for `capStep` in each regime -/

theorem capStep_missed {α : Type} (c : Cap α) (tlb : Int) (data : List α)
    (h : c.t0 < tlb) : capStep c tlb data = .missed := by
  simp [capStep, h]

theorem capStep_after {α : Type} (c : Cap α) (tlb : Int) (data : List α)
    (h : tlb + data.length < c.t0) : capStep c tlb data = .cont c := by
  have hlen : (0 : Int) ≤ data.length := Int.ofNat_nonneg _
  have h1 : ¬ c.t0 < tlb := by omega
  have h2 : ¬ c.t0 ≤ tlb + (data.length : Int) := by omega
  simp [capStep, h1, h2]

theorem capStep_in_complete {α : Type} (c : Cap α) (tlb : Int) (data : List α)
    (h1 : tlb ≤ c.t0) (h2 : (c.t0 - tlb).toNat + c.remaining ≤ data.length) :
    capStep c tlb data =
      .complete ((c.acc ++ [(data.drop (c.t0 - tlb).toNat).take c.remaining]).flatten) := by
  have hi : ((c.t0 - tlb).toNat : Int) = c.t0 - tlb := Int.toNat_of_nonneg (by omega)
  have h0 : ¬ c.t0 < tlb := by omega
  have h2' : c.t0 ≤ tlb + (data.length : Int) := by omega
  have hd : min c.remaining (data.length - (c.t0 - tlb).toNat) = c.remaining := by omega
  simp [capStep, h0, h2', hd]

theorem capStep_in_cont {α : Type} (c : Cap α) (tlb : Int) (data : List α)
    (h1 : tlb ≤ c.t0) (h2 : c.t0 ≤ tlb + data.length)
    (h3 : data.length < (c.t0 - tlb).toNat + c.remaining) :
    capStep c tlb data =
      .cont ⟨tlb + data.length, c.remaining - (data.length - (c.t0 - tlb).toNat),
             c.acc ++ [data.drop (c.t0 - tlb).toNat]⟩ := by
  have hi : ((c.t0 - tlb).toNat : Int) = c.t0 - tlb := Int.toNat_of_nonneg (by omega)
  have hile : (c.t0 - tlb).toNat ≤ data.length := by omega
  have h0 : ¬ c.t0 < tlb := by omega
  have hd : min c.remaining (data.length - (c.t0 - tlb).toNat)
      = data.length - (c.t0 - tlb).toNat := by omega
  have hrem : ¬ c.remaining - (data.length - (c.t0 - tlb).toNat) = 0 := by omega
  have htake : (data.drop (c.t0 - tlb).toNat).take (data.length - (c.t0 - tlb).toNat)
      = data.drop (c.t0 - tlb).toNat := by
    apply List.take_of_length_le
    simp [List.length_drop]
  have ht0 : c.t0 + ((data.length - (c.t0 - tlb).toNat : Nat) : Int)
      = tlb + data.length := by
    push_cast [Nat.cast_sub hile]
    omega
  simp [capStep, h0, h2, hd, hrem, htake, ht0]

/-- C2: the per-epoch capture state machine. For a chunk `(tlb, data)` fed to
a live capture state: if the target start is before the chunk the epoch is
missed and the state terminates; if the start is at or before the end of the
chunk, the slice `data[i:i+d]` with `i = t0 - tlb`, `d = min(remaining,
len(data) - i)` is appended, `t0` advances by `d`, `remaining` drops by `d`,
and the state completes with the concatenation of the accumulated slices
exactly when `remaining` reaches zero; otherwise nothing changes.  When
`t0 = tlb + len(data)` no samples are taken from this chunk (only an empty
slice is recorded) and the state is otherwise unchanged. -/
theorem capture_epoch_step_cases {α : Type} (c : Cap α) (tlb : Int) (data : List α) :
    (c.t0 < tlb → capStep c tlb data = .missed) ∧
    (tlb ≤ c.t0 → c.t0 ≤ tlb + data.length →
      let i := (c.t0 - tlb).toNat
      let d := min c.remaining (data.length - i)
      (c.remaining = d →
        capStep c tlb data = .complete ((c.acc ++ [(data.drop i).take d]).flatten)) ∧
      (d < c.remaining →
        capStep c tlb data = .cont ⟨c.t0 + d, c.remaining - d, c.acc ++ [(data.drop i).take d]⟩)) ∧
    (tlb + data.length < c.t0 → capStep c tlb data = .cont c) ∧
    (c.t0 = tlb + data.length → 0 < c.remaining →
      capStep c tlb data = .cont ⟨c.t0, c.remaining, c.acc ++ [[]]⟩) := by
  refine ⟨capStep_missed c tlb data, ?_, capStep_after c tlb data, ?_⟩
  · intro h1 h2
    have hi : ((c.t0 - tlb).toNat : Int) = c.t0 - tlb := Int.toNat_of_nonneg (by omega)
    refine ⟨?_, ?_⟩
    · intro hrd
      have hle : (c.t0 - tlb).toNat + c.remaining ≤ data.length := by omega
      have hd : min c.remaining (data.length - (c.t0 - tlb).toNat) = c.remaining := by omega
      rw [capStep_in_complete c tlb data h1 hle, hd]
    · intro hlt
      have h3 : data.length < (c.t0 - tlb).toNat + c.remaining := by omega
      have hd : min c.remaining (data.length - (c.t0 - tlb).toNat)
          = data.length - (c.t0 - tlb).toNat := by omega
      have htake : (data.drop (c.t0 - tlb).toNat).take (data.length - (c.t0 - tlb).toNat)
          = data.drop (c.t0 - tlb).toNat := by
        apply List.take_of_length_le
        simp [List.length_drop]
      have ht0 : c.t0 + ((min c.remaining (data.length - (c.t0 - tlb).toNat) : Nat) : Int)
          = tlb + data.length := by
        rw [hd]
        push_cast [Nat.cast_sub (show (c.t0 - tlb).toNat ≤ data.length by omega)]
        omega
      rw [capStep_in_cont c tlb data h1 h2 h3]
      rw [hd] at ht0 ⊢
      rw [htake, ← ht0]
  · intro heq hrem
    have h1 : tlb ≤ c.t0 := by
      have : (0 : Int) ≤ data.length := Int.ofNat_nonneg _
      omega
    have h2 : c.t0 ≤ tlb + data.length := le_of_eq heq
    have hi : (c.t0 - tlb).toNat = data.length := by omega
    have h3 : data.length < (c.t0 - tlb).toNat + c.remaining := by omega
    rw [capStep_in_cont c tlb data h1 h2 h3, hi]
    have hdrop : data.drop data.length = [] := List.drop_eq_nil_of_le le_rfl
    have : data.length - data.length = 0 := by omega
    simp [hdrop, this, heq]

/-- Witness for C2: a concrete in-window feed that completes the epoch. -/
theorem capture_epoch_step_cases_witness :
    capStep (⟨2, 3, [[9]]⟩ : Cap ℚ) 0 [1, 2, 3, 4, 5] = .complete [9, 3, 4, 5] := by
  have h := (capture_epoch_step_cases (⟨2, 3, [[9]]⟩ : Cap ℚ) 0 [1, 2, 3, 4, 5]).2.1
    (by decide) (by decide)
  exact h.1 (by decide)

/-! ### Chunk-splitting invariance of epoch capture (C3) -/

theorem CapOut.equiv_refl {α : Type} (o : CapOut α) : o.equiv o := by
  cases o <;> simp [CapOut.equiv]

theorem CapOut.equiv_symm {α : Type} {o p : CapOut α} (h : o.equiv p) : p.equiv o := by
  cases o <;> cases p <;> simp_all [CapOut.equiv]

theorem CapOut.equiv_trans {α : Type} {o p q : CapOut α}
    (h1 : o.equiv p) (h2 : p.equiv q) : o.equiv q := by
  cases o <;> cases p <;> cases q <;> simp_all [CapOut.equiv]

/-- Splitting a chunk in two never changes the capture outcome (up to how the
accumulated samples are partitioned into slices). -/
theorem capStep_append_equiv {α : Type} (c : Cap α) (tlb : Int) (a b : List α) :
    CapOut.equiv (capStep c tlb (a ++ b)) (capStep2 c tlb a b) := by
  rcases c with ⟨t, r, acc⟩
  by_cases h1 : t < tlb
  · rw [capStep2, capStep_missed _ _ _ h1, capStep_missed _ _ _ h1]
    simp [CapOut.equiv]
  push_neg at h1
  have hab : (a ++ b).length = a.length + b.length := List.length_append a b
  have hla : (0 : Int) ≤ a.length := Int.ofNat_nonneg _
  have hlb : (0 : Int) ≤ b.length := Int.ofNat_nonneg _
  have hi : ((t - tlb).toNat : Int) = t - tlb := Int.toNat_of_nonneg (by omega)
  by_cases h2 : t ≤ tlb + a.length
  · -- the start is inside (or at the end of) `a`
    have hile : (t - tlb).toNat ≤ a.length := by omega
    by_cases h3 : (t - tlb).toNat + r ≤ a.length
    · -- the epoch completes within `a`
      have h3' : (t - tlb).toNat + r ≤ (a ++ b).length := by omega
      rw [capStep2, capStep_in_complete ⟨t, r, acc⟩ tlb a h1 h3,
        capStep_in_complete ⟨t, r, acc⟩ tlb (a ++ b) h1 h3']
      have hslice : ((a ++ b).drop (t - tlb).toNat).take r
          = (a.drop (t - tlb).toNat).take r := by
        rw [List.drop_append_eq_append_drop,
          show (t - tlb).toNat - a.length = 0 by omega, List.drop_zero]
        exact List.take_append_of_le_length (by simp [List.length_drop]; omega)
      simp [CapOut.equiv, hslice]
    · -- the epoch continues past the end of `a`
      push_neg at h3
      set c1 : Cap α := ⟨tlb + a.length, r - (a.length - (t - tlb).toNat),
        acc ++ [a.drop (t - tlb).toNat]⟩ with hc1
      have hc1t : c1.t0 = tlb + a.length := rfl
      have hc1i : (c1.t0 - (tlb + a.length)).toNat = 0 := by simp [hc1t]
      have hred : capStep2 ⟨t, r, acc⟩ tlb a b
          = capStep c1 (tlb + a.length) b := by
        rw [capStep2, capStep_in_cont ⟨t, r, acc⟩ tlb a h1 h2 h3]
      rw [hred]
      by_cases h4 : r - (a.length - (t - tlb).toNat) ≤ b.length
      · -- completes inside `b`
        have h4' : (t - tlb).toNat + r ≤ (a ++ b).length := by omega
        have h4c1 : (c1.t0 - (tlb + a.length)).toNat + c1.remaining ≤ b.length := by
          rw [hc1i]; simpa [hc1] using h4
        rw [capStep_in_complete ⟨t, r, acc⟩ tlb (a ++ b) h1 h4',
          capStep_in_complete c1 (tlb + a.length) b (by rw [hc1t]) h4c1]
        have hslice : ((a ++ b).drop (t - tlb).toNat).take r
            = a.drop (t - tlb).toNat ++ b.take (r - (a.length - (t - tlb).toNat)) := by
          rw [List.drop_append_eq_append_drop,
            show (t - tlb).toNat - a.length = 0 by omega, List.drop_zero,
            List.take_append_eq_append_take,
            List.take_of_length_le (by simp [List.length_drop]; omega)]
          congr 2
          simp [List.length_drop]
        simp only [CapOut.equiv, hc1i, hc1, List.drop_zero]
        rw [hslice]
        simp [List.flatten_append]
      · -- still not complete after `b`
        push_neg at h4
        have h2' : t ≤ tlb + ((a ++ b).length : Int) := by omega
        have h3' : (a ++ b).length < (t - tlb).toNat + r := by omega
        have hc1b : b.length < (c1.t0 - (tlb + a.length)).toNat + c1.remaining := by
          rw [hc1i]; simpa [hc1] using h4
        rw [capStep_in_cont ⟨t, r, acc⟩ tlb (a ++ b) h1 h2' h3',
          capStep_in_cont c1 (tlb + a.length) b (by rw [hc1t]) (by rw [hc1t]; omega) hc1b]
        have hdrop : (a ++ b).drop (t - tlb).toNat = a.drop (t - tlb).toNat ++ b := by
          rw [List.drop_append_eq_append_drop,
            show (t - tlb).toNat - a.length = 0 by omega, List.drop_zero]
        refine ⟨?_, ?_, ?_⟩
        · show tlb + ((a ++ b).length : Int) = tlb + a.length + b.length
          omega
        · show r - ((a ++ b).length - (t - tlb).toNat)
            = c1.remaining - (b.length - (c1.t0 - (tlb + a.length)).toNat)
          rw [hc1i]
          simp only [hc1, hab]
          omega
        · show (acc ++ [(a ++ b).drop (t - tlb).toNat]).flatten
            = (c1.acc ++ [b.drop (c1.t0 - (tlb + a.length)).toNat]).flatten
          rw [hc1i]
          simp [hc1, hdrop, List.flatten_append]
  · -- the start lies strictly past the end of `a`
    push_neg at h2
    have hred : capStep2 ⟨t, r, acc⟩ tlb a b
        = capStep ⟨t, r, acc⟩ (tlb + a.length) b := by
      rw [capStep2, capStep_after ⟨t, r, acc⟩ tlb a h2]
    rw [hred]
    by_cases h3 : t ≤ tlb + a.length + b.length
    · -- the start is inside `b`
      have hi2 : ((t - (tlb + a.length)).toNat : Int) = t - (tlb + a.length) :=
        Int.toNat_of_nonneg (by omega)
      have hieq : (t - tlb).toNat - a.length = (t - (tlb + a.length)).toNat := by omega
      have hage : a.length ≤ (t - tlb).toNat := by omega
      have hdropab : (a ++ b).drop (t - tlb).toNat
          = b.drop ((t - (tlb + a.length)).toNat) := by
        rw [List.drop_append_eq_append_drop, List.drop_eq_nil_of_le hage, List.nil_append,
          hieq]
      by_cases h4 : (t - (tlb + a.length)).toNat + r ≤ b.length
      · have h4' : (t - tlb).toNat + r ≤ (a ++ b).length := by omega
        rw [capStep_in_complete ⟨t, r, acc⟩ tlb (a ++ b) h1 h4',
          capStep_in_complete ⟨t, r, acc⟩ (tlb + a.length) b
            (by show tlb + (a.length : Int) ≤ t; omega) h4]
        simp [CapOut.equiv, hdropab]
      · push_neg at h4
        have h2' : t ≤ tlb + ((a ++ b).length : Int) := by omega
        have h3' : (a ++ b).length < (t - tlb).toNat + r := by omega
        rw [capStep_in_cont ⟨t, r, acc⟩ tlb (a ++ b) h1 h2' h3',
          capStep_in_cont ⟨t, r, acc⟩ (tlb + a.length) b
            (by show tlb + (a.length : Int) ≤ t; omega)
            (by show t ≤ tlb + (a.length : Int) + (b.length : Int); omega)
            (by show b.length < (t - (tlb + (a.length : Int))).toNat + r; omega)]
        refine ⟨by simp; omega, by simp [hab]; omega, by rw [hdropab]⟩
    · -- the start lies past `b` as well: nothing happens on either side
      push_neg at h3
      rw [capStep_after ⟨t, r, acc⟩ tlb (a ++ b)
          (by show tlb + ((a ++ b).length : Int) < t; omega),
        capStep_after ⟨t, r, acc⟩ (tlb + a.length) b
          (by show tlb + (a.length : Int) + (b.length : Int) < t; omega)]
      exact CapOut.equiv_refl _

/-- The step `capStep` respects outcome equivalence of its input states. -/
theorem capStep_equiv_congr {α : Type} {c d : Cap α} (tlb : Int) (data : List α)
    (ht : c.t0 = d.t0) (hr : c.remaining = d.remaining)
    (ha : c.acc.flatten = d.acc.flatten) :
    CapOut.equiv (capStep c tlb data) (capStep d tlb data) := by
  by_cases h1 : c.t0 < tlb
  · rw [capStep_missed c tlb data h1, capStep_missed d tlb data (ht ▸ h1)]
    trivial
  push_neg at h1
  by_cases h2 : c.t0 ≤ tlb + data.length
  · by_cases h3 : (c.t0 - tlb).toNat + c.remaining ≤ data.length
    · rw [capStep_in_complete c tlb data h1 h3,
        capStep_in_complete d tlb data (ht ▸ h1) (by rw [← ht, ← hr]; exact h3)]
      simp [CapOut.equiv, List.flatten_append, ← ht, ← hr, ha]
    · push_neg at h3
      rw [capStep_in_cont c tlb data h1 h2 h3,
        capStep_in_cont d tlb data (ht ▸ h1) (ht ▸ h2) (by rw [← ht, ← hr]; exact h3)]
      exact ⟨rfl, by rw [← ht, ← hr], by simp [List.flatten_append, ← ht, ha]⟩
  · push_neg at h2
    rw [capStep_after c tlb data h2, capStep_after d tlb data (ht ▸ h2)]
    exact ⟨ht, hr, ha⟩

/-- The run `capRun` respects outcome equivalence of its input states. -/
theorem capRun_equiv_congr {α : Type} {c d : Cap α} (chunks : List (Int × List α))
    (ht : c.t0 = d.t0) (hr : c.remaining = d.remaining)
    (ha : c.acc.flatten = d.acc.flatten) :
    CapOut.equiv (capRun c chunks) (capRun d chunks) := by
  induction chunks generalizing c d with
  | nil => exact ⟨ht, hr, ha⟩
  | cons chunk rest ih =>
    obtain ⟨tlb, data⟩ := chunk
    have hstep := capStep_equiv_congr tlb data ht hr ha
    rw [capRun_cons, capRun_cons]
    cases hc : capStep c tlb data <;> cases hd : capStep d tlb data <;>
      simp only [hc, hd, CapOut.equiv] at hstep ⊢ <;> try trivial
    exact ih hstep.1 hstep.2.1 hstep.2.2

/-- Splitting one chunk of a capture run in two is outcome-equivalent. -/
theorem capRun_split {α : Type} (c : Cap α) (tlb : Int) (a b : List α)
    (rest : List (Int × List α)) :
    CapOut.equiv (capRun c ((tlb, a ++ b) :: rest))
      (capRun c ((tlb, a) :: (tlb + a.length, b) :: rest)) := by
  have key := capStep_append_equiv c tlb a b
  rw [capStep2] at key
  rw [capRun_cons, capRun_cons]
  cases h1 : capStep c tlb a
  case missed =>
    simp only [h1] at key ⊢
    cases h0 : capStep c tlb (a ++ b) <;>
      simp only [h0, CapOut.equiv] at key ⊢
  case complete s =>
    simp only [h1] at key ⊢
    cases h0 : capStep c tlb (a ++ b) <;>
      (simp only [h0, CapOut.equiv] at key ⊢; try trivial)
  case cont c1 =>
    simp only [h1] at key ⊢
    rw [capRun_cons]
    cases h0 : capStep c tlb (a ++ b) <;>
      cases h2 : capStep c1 (tlb + a.length) b <;>
      simp only [h0, h2, CapOut.equiv] at key ⊢ <;> try trivial
    exact capRun_equiv_congr rest key.1 key.2.1 key.2.2

/-- C3: the epoch signal captured from a stream of samples does not depend on
how the stream is partitioned into successive chunks.  Delivering the pieces
`ps` one after the other (starting at absolute sample `tlb`) is
outcome-equivalent to delivering their concatenation as a single chunk: a
miss is a miss either way, a completed epoch carries the identical signal,
and an in-flight capture holds the identical accumulated samples. -/
theorem capture_partition_invariant {α : Type} (c : Cap α) (tlb : Int)
    (ps : List (List α)) (hne : ps ≠ []) :
    CapOut.equiv (capRun c (chunksOf tlb ps)) (capRun c [(tlb, ps.flatten)]) := by
  induction ps generalizing c tlb with
  | nil => exact absurd rfl hne
  | cons p ps ih =>
    by_cases hps : ps = []
    · subst hps
      simp only [chunksOf, List.flatten_cons, List.flatten_nil, List.append_nil]
      exact CapOut.equiv_refl _
    · have hsplit := CapOut.equiv_symm (capRun_split c tlb p ps.flatten [])
      refine CapOut.equiv_trans ?_ (by simpa only [List.flatten_cons] using hsplit)
      rw [chunksOf_cons, capRun_cons, capRun_cons]
      cases h1 : capStep c tlb p <;> simp only [CapOut.equiv]
      rename_i c1
      exact ih c1 (tlb + p.length) hps

/-- Witness for C3: a 5-sample window delivered as one chunk and as three
chunks yields the same captured signal. -/
theorem capture_partition_invariant_witness :
    CapOut.equiv
      (capRun (⟨2, 3, []⟩ : Cap ℚ) (chunksOf 0 [[1, 2], [3], [4, 5, 6]]))
      (capRun (⟨2, 3, []⟩ : Cap ℚ) [(0, [1, 2, 3, 4, 5, 6])]) :=
  capture_partition_invariant (⟨2, 3, []⟩ : Cap ℚ) 0 [[1, 2], [3], [4, 5, 6]]
    (by decide)

/-! ### The lookback-buffer pruning invariant (C4) -/

theorem pruneLoop_suffix {α : Type} (B t : Int) (l p : List (Int × List α))
    (h : pruneLoop B t l = some p) : p.IsSuffix l := by
  induction l with
  | nil => simp [pruneLoop] at h
  | cons c rest ih =>
    simp only [pruneLoop] at h
    split at h
    · exact (ih h).trans (List.suffix_cons c rest)
    · simp only [Option.some.injEq] at h
      subst h
      exact List.suffix_refl _

theorem pruneLoop_head {α : Type} (B t : Int) (l p : List (Int × List α))
    (h : pruneLoop B t l = some p) :
    ∃ hd rest, p = hd :: rest ∧ t - B ≤ chunkEnd hd := by
  induction l with
  | nil => simp [pruneLoop] at h
  | cons c rest ih =>
    simp only [pruneLoop] at h
    split at h
    · exact ih h
    · next hc =>
      simp only [Option.some.injEq] at h
      subst h
      exact ⟨c, rest, rfl, by omega⟩

theorem exStep_inv {α : Type} (B : Int) (s : ExState α)
    (data : List α) (s' : ExState α) (hinv : ExInv B s)
    (h : exStep B s data = some s') : ExInv B s' := by
  obtain ⟨hpw, hub, _⟩ := hinv
  simp only [exStep, Option.map_eq_some'] at h
  obtain ⟨p, hp, hs'⟩ := h
  subst hs'
  have htle : s.tlb ≤ s.tlb + (data.length : Int) := by
    have : (0 : Int) ≤ data.length := Int.ofNat_nonneg _
    omega
  have hend : chunkEnd (s.tlb, data) = s.tlb + (data.length : Int) := rfl
  have hpw1 : List.Pairwise (· ≤ ·) ((s.prior ++ [(s.tlb, data)]).map chunkEnd) := by
    rw [List.map_append]
    refine List.pairwise_append.mpr ⟨hpw, List.pairwise_singleton _ _, ?_⟩
    intro x hx y hy
    obtain ⟨c, hc, rfl⟩ := List.mem_map.mp hx
    simp only [List.map_cons, List.map_nil, List.mem_singleton] at hy
    subst hy
    rw [hend]
    exact le_trans (hub c hc) htle
  have hub1 : ∀ c ∈ s.prior ++ [(s.tlb, data)],
      chunkEnd c ≤ s.tlb + (data.length : Int) := by
    intro c hc
    rcases List.mem_append.mp hc with hmem | hmem
    · exact le_trans (hub c hmem) htle
    · simp only [List.mem_singleton] at hmem
      subst hmem
      rw [hend]
  have hsuf := pruneLoop_suffix _ _ _ _ hp
  obtain ⟨hd, rest, hpshape, hhd⟩ := pruneLoop_head _ _ _ _ hp
  have hpwp : List.Pairwise (· ≤ ·) (p.map chunkEnd) :=
    List.Pairwise.sublist (List.Sublist.map chunkEnd hsuf.sublist) hpw1
  refine ⟨hpwp, fun c hc => hub1 c (hsuf.subset hc), ?_⟩
  intro c hc
  subst hpshape
  rcases List.mem_cons.mp hc with hmem | hmem
  · subst hmem; exact hhd
  · have hpwp' : List.Pairwise (· ≤ ·) (chunkEnd hd :: rest.map chunkEnd) := by
      rw [List.map_cons] at hpwp
      exact hpwp
    have hle : chunkEnd hd ≤ chunkEnd c :=
      (List.pairwise_cons.mp hpwp').1 _ (List.mem_map.mpr ⟨c, hmem, rfl⟩)
    show s.tlb + (data.length : Int) - B ≤ chunkEnd c
    omega

theorem exRun_inv {α : Type} (B : Int) (s : ExState α)
    (chunks : List (List α)) (s' : ExState α) (hinv : ExInv B s)
    (h : exRun B s chunks = some s') : ExInv B s' := by
  induction chunks generalizing s with
  | nil =>
    simp only [exRun, Option.some.injEq] at h
    subst h
    exact hinv
  | cons d ds ih =>
    rw [exRun] at h
    cases hstep : exStep B s d with
    | none => rw [hstep] at h; simp at h
    | some s1 =>
      rw [hstep] at h
      exact ih s1 (exStep_inv B s d s1 hinv hstep) h

/-- C4: after `extract_epochs` finishes processing each delivered chunk,
every chunk retained in the lookback buffer has its one-past-the-end sample
index at least `tlb - round(buffer_size*fs)`: the buffer never retains a
chunk whose last samples lie entirely before the lookback window. -/
theorem extract_epochs_prune_invariant {α : Type} (fs bufferSize : ℚ)
    (chunks : List (List α)) (s' : ExState α)
    (hrun : exRun (pyRound (bufferSize * fs)) ⟨0, []⟩ chunks = some s') :
    ∀ c ∈ s'.prior, s'.tlb - pyRound (bufferSize * fs) ≤ chunkEnd c := by
  have hinv0 : ExInv (pyRound (bufferSize * fs)) (⟨0, []⟩ : ExState α) :=
    ⟨List.Pairwise.nil, by simp, by simp⟩
  exact (exRun_inv _ _ chunks s' hinv0 hrun).2.2

/-- Witness for C4: a three-chunk run at `fs = 2`, `buffer_size = 1` prunes
the first chunk and retains chunks within the lookback window. -/
theorem extract_epochs_prune_invariant_witness :
    ((⟨4, [(1, [3, 4]), (3, [5])]⟩ : ExState ℚ) : ExState ℚ).tlb
        - pyRound ((1 : ℚ) * 2) ≤ chunkEnd ((1 : Int), ([3, 4] : List ℚ)) := by
  have hpr : pyRound ((1 : ℚ) * 2) = 2 := by norm_num [pyRound]
  have h := extract_epochs_prune_invariant (α := ℚ) 2 1
    [[1], [3, 4], [5]] ⟨4, [(1, [3, 4]), (3, [5])]⟩ (by rw [hpr]; decide)
  exact h (1, [3, 4]) (by simp)

/-! ### C1: exact sample delivery by `pop_buffer` -/

theorem popStep_length_le (s : QState) (n : Nat) (d : Bool) (w : List ℚ)
    (s' : QState) (h : popStep s n d = .ok (w, s')) : w.length ≤ n := by
  by_cases hp : s.paused
  · simp [popStep, hp] at h
    rw [← h.1]
    simp
  · cases hsrc : s.source with
    | some src =>
      by_cases hlen : src.length < n
      · simp [popStep, hp, hsrc, hlen] at h
        rw [← h.1]
        omega
      · simp [popStep, hp, hsrc, hlen] at h
        rw [← h.1]
        simp [List.length_take]
    | none =>
      by_cases hd : s.delaySamples > 0
      · simp [popStep, hp, hsrc, hd] at h
        rw [← h.1]
        simp only [List.length_replicate]
        omega
      · cases hnt : nextTrial s d with
        | error e => simp [popStep, hp, hsrc, hd, hnt, Except.map] at h
        | ok s2 =>
          simp [popStep, hp, hsrc, hd, hnt, Except.map] at h
          rw [h.1]
          simp

theorem popBufferLoop_length (fuel : Nat) :
    ∀ (s : QState) (n : Nat) (d : Bool) (w : List ℚ) (s' : QState),
    popBufferLoop fuel s n d = some (.ok (w, s')) → w.length = n := by
  induction fuel with
  | zero => intro s n d w s' h; simp [popBufferLoop] at h
  | succ fuel ih =>
    intro s n d w s' h
    rw [popBufferLoop] at h
    by_cases hn : n = 0
    · rw [if_pos hn] at h
      simp only [Option.some.injEq, Except.ok.injEq, Prod.mk.injEq] at h
      rw [← h.1, hn]
      rfl
    · rw [if_neg hn] at h
      cases hstep : popStep s n d with
      | error e =>
        rw [hstep] at h
        cases e with
        | queueEmpty =>
          simp only [Option.some.injEq, Except.ok.injEq, Prod.mk.injEq] at h
          rw [← h.1]
          simp
        | keyError m => simp at h
        | valueError m => simp at h
        | typeError m => simp at h
        | stopIteration => simp at h
        | indexError => simp at h
        | zeroDivision => simp at h
      | ok p =>
        obtain ⟨w0, s0⟩ := p
        rw [hstep] at h
        dsimp only at h
        cases hrec : popBufferLoop fuel { s0 with samples := s0.samples + w0.length }
            (n - w0.length) d with
        | none => rw [hrec] at h; exact absurd h (by simp)
        | some r =>
          cases r with
          | error e => rw [hrec] at h; exact absurd h (by simp)
          | ok q =>
            obtain ⟨ws, s2⟩ := q
            rw [hrec] at h
            simp only [Option.some.injEq, Except.ok.injEq, Prod.mk.injEq] at h
            have hle := popStep_length_le s n d w0 s0 hstep
            have hws := ih _ _ _ _ _ hrec
            rw [← h.1]
            simp only [List.length_append]
            omega

theorem popBuffer_length (fuel : Nat) (s : QState) (n : Nat) (d : Bool)
    (w : List ℚ) (s' : QState) (h : popBuffer fuel s n d = some (.ok (w, s'))) :
    w.length = n := by
  by_cases hn : n = 0
  · simp [popBuffer, hn] at h
  · rw [popBuffer, if_neg hn] at h
    exact popBufferLoop_length fuel s n d w s' h

/-- C1: every `pop_buffer(n)` call that returns, returns exactly `n`
samples: over any dispatch session (any policy, any state), the buffers
produced by the successive `pop_buffer(n_i)` calls have lengths exactly
`n_i`, so the total number of samples produced equals the total requested. -/
theorem pop_buffer_exact_lengths (fuel : Nat) (s : QState) (ns : List Nat)
    (bufs : List (List ℚ)) (s' : QState)
    (h : runPops fuel s ns = some (.ok (bufs, s'))) :
    bufs.map List.length = ns ∧ (bufs.map List.length).sum = ns.sum := by
  suffices hm : bufs.map List.length = ns by exact ⟨hm, by rw [hm]⟩
  induction ns generalizing s bufs with
  | nil =>
    simp only [runPops, Option.some.injEq, Except.ok.injEq, Prod.mk.injEq] at h
    rw [← h.1]
    rfl
  | cons n ns ih =>
    rw [runPops] at h
    cases hpb : popBuffer fuel s n true with
    | none => rw [hpb] at h; exact absurd h (by simp)
    | some r =>
      cases r with
      | error e => rw [hpb] at h; exact absurd h (by simp)
      | ok p =>
        obtain ⟨b, s1⟩ := p
        rw [hpb] at h
        dsimp only at h
        cases hrec : runPops fuel s1 ns with
        | none => rw [hrec] at h; exact absurd h (by simp)
        | some r2 =>
          cases r2 with
          | error e => rw [hrec] at h; exact absurd h (by simp)
          | ok q =>
            obtain ⟨bs, s2⟩ := q
            rw [hrec] at h
            simp only [Option.some.injEq, Except.ok.injEq, Prod.mk.injEq] at h
            obtain ⟨h1, h2⟩ := h
            subst h2
            rw [← h1]
            simp only [List.map_cons, List.cons.injEq]
            exact ⟨popBuffer_length fuel s n true b s1 hpb, ih s1 bs hrec⟩

theorem c1Ex_run :
    runPops 10 c1Ex [3, 2] = some (.ok ([[5, 6, 0], [0, 0]], c1ExFinal)) := by
  norm_num [runPops, popBuffer, popBufferLoop, popStep, nextTrial, nextKey,
    popKey, decrementKey, removeKey, dictGet, dictSet, notifyEv, curT0,
    Delays.next, pyRound, c1Ex, c1ExFinal, Bind.bind, Except.bind, Except.map,
    List.replicate]

/-- Witness for C1: the session `pop_buffer(3); pop_buffer(2)` on a concrete
queue returns buffers of lengths exactly 3 and 2. -/
theorem pop_buffer_exact_lengths_witness :
    ([[5, 6, 0], [0, 0]] : List (List ℚ)).map List.length = [3, 2] ∧
    (([[5, 6, 0], [0, 0]] : List (List ℚ)).map List.length).sum = [3, 2].sum :=
  pop_buffer_exact_lengths 10 c1Ex [3, 2] [[5, 6, 0], [0, 0]] c1ExFinal c1Ex_run

/-! ### C5: `QueueEmpty` is converted to padding silence -/

theorem nextKey_fifo_nil (s : QState) (hp : s.policy = .fifo)
    (hord : s.ordering = []) : nextKey s = .error .queueEmpty := by
  simp [nextKey, hp, hord]

theorem nextTrial_empty (s : QState) (d : Bool)
    (h : nextKey s = .error .queueEmpty) : nextTrial s d = .error .queueEmpty := by
  simp [nextTrial, h, Bind.bind, Except.bind]

/-- C5: when the FIFO policy's `next_key` signals `QueueEmpty` with `n`
samples still owed (no active source, no pending delay, not paused), the
inner step's exception is caught: the remainder is filled with `n` zeros,
`_empty` is latched (so `is_empty()` returns true), and `pop_buffer`
returns normally with the full-length buffer; the exception never reaches
the caller. -/
theorem pop_buffer_queue_empty (s : QState) (n fuel : Nat)
    (hp : s.policy = .fifo) (hord : s.ordering = [])
    (hpause : s.paused = false) (hsrc : s.source = none)
    (hdel : s.delaySamples ≤ 0) (hn : n ≠ 0) :
    popBuffer (fuel + 1) s n true
      = some (.ok (List.replicate n 0, { s with empty := true, samples := s.samples + n }))
    ∧ isEmpty { s with empty := true, samples := s.samples + n } = true := by
  constructor
  · have hstep : popStep s n true = .error .queueEmpty := by
      have hne := nextTrial_empty s true (nextKey_fifo_nil s hp hord)
      have hdel' : ¬ s.delaySamples > 0 := not_lt.mpr hdel
      simp [popStep, hpause, hsrc, hdel', hne, Except.map]
    rw [popBuffer, if_neg hn, popBufferLoop, if_neg hn, hstep]
  · rfl

/-- Witness for C5: `pop_buffer(4)` on an exhausted queue returns four zeros
and latches `_empty`. -/
theorem pop_buffer_queue_empty_witness :
    popBuffer 1 c5Ex 4 true
      = some (.ok ([0, 0, 0, 0], ⟨1, 0, [], [], none, 11, false, true, 0, [], [], 0, .fifo⟩))
    ∧ isEmpty ⟨1, 0, [], [], none, 11, false, true, 0, [], [], 0, .fifo⟩ = true := by
  have h := pop_buffer_queue_empty c5Ex 4 0 rfl rfl rfl rfl (by decide) (by decide)
  exact h

/-- Counterexample for C6: on `c6State` every token has
`trials_remaining ≤ 0`, yet `next_key` does not raise `QueueEmpty` — it
returns the key.  The queue only becomes complete through a `decrement_key`
call, so "next_key raises iff all tokens have trials ≤ 0" is false. -/
theorem interleaved_next_key_counterexample :
    c6State.data.map (fun kt => kt.2.trials) = [0] ∧
    nextKey c6State = .ok (0, { c6State with policy := .interleaved 0 false }) :=
  ⟨rfl, rfl⟩

/-- C6 (amended): for the interleaved FIFO policy, `decrement_key` never
removes the key from the ordering; `next_key` raises `QueueEmpty` iff the
`_complete` flag is set; a `decrement_key` call returns `True` — and sets
the flag — exactly when every token's post-decrement `trials` is ≤ 0
(the flag, once set, persists); and while the flag is unset and the
ordering nonempty, `next_key` returns the next key in rotation regardless
of its remaining trials. -/
theorem interleaved_complete_semantics (s : QState) (i : Int) (c : Bool)
    (hp : s.policy = .interleaved i c) :
    (nextKey s = .error .queueEmpty ↔ c = true) ∧
    (∀ key n b s', decrementKey s key n = .ok (b, s') →
      s'.ordering = s.ordering ∧
      s'.policy = .interleaved i (b || c) ∧
      (b = true ↔ ∀ kt ∈ s'.data, kt.2.trials ≤ 0)) ∧
    (c = false → s.ordering ≠ [] →
      nextKey s = .ok (s.ordering.getD ((i + 1) % (s.ordering.length : Int)).toNat 0,
        { s with policy := .interleaved ((i + 1) % (s.ordering.length : Int)) c })) := by
  refine ⟨?_, ?_, ?_⟩
  · cases hc : c
    · subst hc
      simp only [nextKey, hp, Bool.false_eq_true, if_false]
      by_cases hlen : s.ordering.length = 0 <;> simp [hlen]
    · subst hc
      simp [nextKey, hp]
  · intro key n b s' h
    simp only [decrementKey, hp] at h
    by_cases hmem : key ∈ s.ordering
    · rw [if_pos hmem] at h
      cases hget : dictGet s.data key with
      | none => simp [hget] at h
      | some tok =>
        simp only [hget] at h
        by_cases hany : (dictSet s.data key
            (fun t => { t with trials := t.trials - n })).any
            (fun kt => kt.2.trials > 0) = true
        · rw [if_pos hany] at h
          simp only [Except.ok.injEq, Prod.mk.injEq] at h
          obtain ⟨hb, hs'⟩ := h
          subst hb
          subst hs'
          refine ⟨rfl, by simp [hp], ?_⟩
          simp only [Bool.false_eq_true, false_iff]
          intro hall
          obtain ⟨kt, hkt, hgt⟩ := List.any_eq_true.mp hany
          have := hall kt hkt
          simp at hgt
          omega
        · rw [if_neg hany] at h
          simp only [Except.ok.injEq, Prod.mk.injEq] at h
          obtain ⟨hb, hs'⟩ := h
          subst hb
          subst hs'
          refine ⟨by simp [setComplete], by simp [setComplete, hp], ?_⟩
          simp only [true_iff]
          intro kt hkt
          simp only [setComplete] at hkt
          have : ¬ (kt.2.trials > 0) := by
            intro hgt
            exact hany (List.any_eq_true.mpr ⟨kt, hkt, by simpa using hgt⟩)
          omega
    · rw [if_neg hmem] at h
      exact absurd h (by simp)
  · intro hc hord
    have hlen : ¬ s.ordering.length = 0 := by
      simpa using hord
    subst hc
    simp [nextKey, hp, hlen]

/-- Witness for C6 (amended): the rotation conclusion applied to `c6State`:
`next_key` returns the sole key even though its `trials` is 0. -/
theorem interleaved_complete_semantics_witness :
    nextKey c6State = .ok (0, { c6State with policy := .interleaved 0 false }) := by
  have h := interleaved_complete_semantics c6State (-1) false rfl
  exact h.2.2 rfl (by decide)

/-! ### C8: `insert` calls `list.insert` with a missing argument -/

/-- C8: `insert` always raises `TypeError` — `self._ordering.insert(k)`
passes `list.insert` one positional argument where two are required — so no
key is ever prepended or returned.  The spec-modelled intended behavior
(`insertSpec`) does prepend the fresh key and return it. -/
theorem insert_raises_type_error (s : QState) (source : List ℚ) (trials : Int)
    (delays : Option (ℚ ⊕ List ℚ)) (duration : Option ℚ) (metadata : Option Nat) :
    insertQ s source trials delays duration metadata
        = .error (.typeError "insert expected 2 arguments, got 1") ∧
    (insertSpec s source trials delays duration metadata).1 = s.nextId ∧
    (insertSpec s source trials delays duration metadata).2.ordering
        = s.nextId :: s.ordering :=
  ⟨rfl, rfl, rfl⟩

/-- C9: on a length mismatch (here `trials` of length 3 against 2 sources),
`extend` raises `KeyError('param')` — `base_err.format('trials', n)`
supplies positional arguments for the named fields `param`/`n`, so the
intended `ValueError("trials must be a scalar or a sequence of length 2")`
is never constructed.  With matching parameters `extend` appends one token
per source and returns their keys in order. -/
theorem extend_size_mismatch_key_error :
    (extendQ emptyQ [[1], [2]] (.seq [1, 2, 3]) (.scalar none) (.scalar none)
        (.scalar none) = .error (.keyError "param")) ∧
    ((extendQ emptyQ [[1], [2]] (.scalar 3) (.scalar none) (.scalar none)
        (.scalar none)).map (fun p => (p.1, p.2.ordering)) = .ok ([0, 1], [0, 1])) :=
  ⟨rfl, rfl⟩

/-! ### C10: the default `decrement_key` notification discipline -/

/-- C10: the default (`AbstractSignalQueue`) `decrement_key`: when the
decrement exhausts the token (`trials - n ≤ 0`), the key is removed from
the ordering and `True` is returned with no `decrement` notification (the
log is unchanged); when trials remain, the ordering is unchanged, exactly
one `decrement` event is emitted, and `False` is returned. -/
theorem decrement_key_default (s : QState) (key : Nat) (n : Int) (tok : Token)
    (hp : s.policy = .fifo) (hmem : key ∈ s.ordering)
    (htok : dictGet s.data key = some tok) :
    (tok.trials - n ≤ 0 →
      decrementKey s key n = .ok (true,
        { s with data := dictSet s.data key (fun t => { t with trials := t.trials - n }),
                 ordering := s.ordering.erase key })) ∧
    (0 < tok.trials - n →
      decrementKey s key n = .ok (false,
        { s with data := dictSet s.data key (fun t => { t with trials := t.trials - n }),
                 log := s.log ++ [.decrementEv key] })) := by
  constructor
  · intro hle
    simp only [decrementKey, hp, if_pos hmem, htok, if_pos hle]
    simp [removeKey, hmem, Except.map]
  · intro hgt
    have hnle : ¬ tok.trials - n ≤ 0 := by omega
    simp [decrementKey, hp, hmem, htok, hnle, notifyEv]

/-- Witness for C10: decrementing the final trial removes the key, returns
`True`, and emits no `decrement` event. -/
theorem decrement_key_default_witness :
    decrementKey c10State 5 1 = .ok (true,
      { c10State with data := dictSet c10State.data 5 (fun t => { t with trials := t.trials - 1 }),
                      ordering := c10State.ordering.erase 5 }) := by
  have h := decrement_key_default c10State 5 1 ⟨[1], 1, 1, .cyc 0, 1, none⟩ rfl
    (by decide) rfl
  exact h.1 (by decide)

/-- Counterexample for C7: a session using `pause(t)`/`resume` emits
TrialRecords with `t0`s `[0, 2, 1]` — the post-rewind trial's `t0 = 1` is
smaller than the already-emitted `t0 = 2`, so the `t0`s of the `added`
records are not strictly increasing across sessions that rewind. -/
theorem trial_records_t0_counterexample :
    c7Session = some [0, 2, 1] ∧
    ¬ List.Chain' (· < ·) ([0, 2, 1] : List ℚ) := by
  constructor
  · norm_num [c7Session, c7Start, popBuffer, popBufferLoop, popStep, nextTrial,
      nextKey, popKey, decrementKey, removeKey, dictGet, dictSet, notifyEv,
      curT0, Delays.next, pyRound, pause, cancel, requeue, rewindSamples,
      resumeQ, addedT0s, Bind.bind, Except.bind, Except.map, List.replicate,
      List.filterMap_cons]
  · intro h
    rw [List.chain'_cons, List.chain'_cons] at h
    have : (2 : ℚ) < 1 := h.2.1
    norm_num at this

theorem dictGet_mem (d : List (Nat × Token)) (k : Nat) (t : Token)
    (h : dictGet d k = some t) : (k, t) ∈ d := by
  induction d with
  | nil => simp [dictGet] at h
  | cons kt rest ih =>
    obtain ⟨k', t'⟩ := kt
    simp only [dictGet] at h
    split at h
    · next heq =>
      simp only [Option.some.injEq] at h
      subst h
      subst heq
      exact List.mem_cons_self _ _
    · exact List.mem_cons_of_mem _ (ih h)

theorem dictSet_sources (d : List (Nat × Token)) (k : Nat) (f : Token → Token)
    (hf : ∀ t, (f t).source = t.source)
    (hd : ∀ kt ∈ d, kt.2.source ≠ []) :
    ∀ kt ∈ dictSet d k f, kt.2.source ≠ [] := by
  intro kt hkt
  simp only [dictSet, List.mem_map] at hkt
  obtain ⟨kt', hkt', rfl⟩ := hkt
  by_cases h : kt'.1 = k
  · simp only [if_pos h]
    show (f kt'.2).source ≠ []
    rw [hf]
    exact hd kt' hkt'
  · simp only [if_neg h]
    exact hd kt' hkt'

theorem curT0_bump (s : QState) (k : Nat) :
    curT0 { s with samples := s.samples + (k : Int) } = curT0 s + (k : ℚ) / s.fs := by
  unfold curT0
  push_cast
  ring

theorem curT0_bump_lt (s : QState) (k : Nat) (hfs : 0 < s.fs) (hk : k ≠ 0) :
    curT0 s < curT0 { s with samples := s.samples + (k : Int) } := by
  rw [curT0_bump]
  have hkq : (0 : ℚ) < (k : ℚ) := by exact_mod_cast Nat.pos_of_ne_zero hk
  have := div_pos hkq hfs
  linarith

theorem nextKey_fields (s : QState) (k : Nat) (s1 : QState)
    (h : nextKey s = .ok (k, s1)) :
    s1.fs = s.fs ∧ s1.samples = s.samples ∧ s1.t0q = s.t0q ∧
    s1.source = s.source ∧ s1.delaySamples = s.delaySamples ∧
    s1.paused = s.paused ∧ s1.generated = s.generated ∧
    s1.log = s.log ∧ s1.data = s.data := by
  cases hp : s.policy <;> simp only [nextKey, hp] at h
  case fifo =>
    cases hord : s.ordering with
    | nil => rw [hord] at h; exact absurd h (by simp)
    | cons a l =>
      rw [hord] at h
      simp only [Except.ok.injEq, Prod.mk.injEq] at h
      obtain ⟨-, rfl⟩ := h
      exact ⟨rfl, rfl, rfl, rfl, rfl, rfl, rfl, rfl, rfl⟩
  case interleaved i c =>
    split at h
    · exact absurd h (by simp)
    · split at h
      · exact absurd h (by simp)
      · simp only [Except.ok.injEq, Prod.mk.injEq] at h
        obtain ⟨-, rfl⟩ := h
        exact ⟨rfl, rfl, rfl, rfl, rfl, rfl, rfl, rfl, rfl⟩
  case grouped gs i auto =>
    cases hord : s.ordering with
    | nil => rw [hord] at h; exact absurd h (by simp)
    | cons a l =>
      rw [hord] at h
      by_cases hgs : gs = 0
      · rw [if_pos hgs] at h
        exact absurd h (by simp)
      · rw [if_neg hgs] at h
        by_cases hlt : ((i + 1) % (gs : Int)).toNat < (a :: l).length
        · rw [dif_pos hlt] at h
          simp only [Except.ok.injEq, Prod.mk.injEq] at h
          obtain ⟨-, rfl⟩ := h
          exact ⟨rfl, rfl, rfl, rfl, rfl, rfl, rfl, rfl, rfl⟩
        · rw [dif_neg hlt] at h
          exact absurd h (by simp)
  case random draws =>
    cases hord : s.ordering with
    | nil => rw [hord] at h; exact absurd h (by simp)
    | cons a l =>
      rw [hord] at h
      simp only [Except.ok.injEq, Prod.mk.injEq] at h
      obtain ⟨-, rfl⟩ := h
      exact ⟨rfl, rfl, rfl, rfl, rfl, rfl, rfl, rfl, rfl⟩
  case blockedRandom pend c oracle =>
    split at h
    · exact absurd h (by simp)
    · split at h
      · exact absurd h (by simp)
      · split at h
        · simp only [Except.ok.injEq, Prod.mk.injEq] at h
          obtain ⟨-, rfl⟩ := h
          exact ⟨rfl, rfl, rfl, rfl, rfl, rfl, rfl, rfl, rfl⟩
        · exact absurd h (by simp)

theorem decrementKey_fields (s : QState) (key : Nat) (n : Int) (b : Bool)
    (s' : QState) (h : decrementKey s key n = .ok (b, s')) :
    s'.fs = s.fs ∧ s'.samples = s.samples ∧ s'.t0q = s.t0q ∧
    s'.source = s.source ∧ s'.delaySamples = s.delaySamples ∧
    s'.paused = s.paused ∧ s'.generated = s.generated ∧
    addedT0s s'.log = addedT0s s.log ∧
    ((∀ kt ∈ s.data, kt.2.source ≠ []) → ∀ kt ∈ s'.data, kt.2.source ≠ []) := by
  cases hp : s.policy <;> simp only [decrementKey, hp] at h
  case interleaved i c =>
    by_cases hmem : key ∈ s.ordering
    · rw [if_pos hmem] at h
      cases hget : dictGet s.data key with
      | none => rw [hget] at h; exact absurd h (by simp)
      | some tok =>
        rw [hget] at h
        dsimp only at h
        split at h <;>
          (simp only [Except.ok.injEq, Prod.mk.injEq] at h
           obtain ⟨-, rfl⟩ := h
           refine ⟨rfl, rfl, rfl, rfl, rfl, rfl, rfl, rfl, ?_⟩
           intro hd
           exact dictSet_sources s.data key (fun t => { t with trials := t.trials - n }) (fun t => rfl) hd)
    · rw [if_neg hmem] at h
      exact absurd h (by simp)
  case blockedRandom pend c oracle =>
    by_cases hmem : key ∈ s.ordering
    · rw [if_pos hmem] at h
      cases hget : dictGet s.data key with
      | none => rw [hget] at h; exact absurd h (by simp)
      | some tok =>
        rw [hget] at h
        dsimp only at h
        split at h <;>
          (simp only [Except.ok.injEq, Prod.mk.injEq] at h
           obtain ⟨-, rfl⟩ := h
           refine ⟨rfl, rfl, rfl, rfl, rfl, rfl, rfl, rfl, ?_⟩
           intro hd
           exact dictSet_sources s.data key (fun t => { t with trials := t.trials - n }) (fun t => rfl) hd)
    · rw [if_neg hmem] at h
      exact absurd h (by simp)
  case grouped gs i auto =>
    by_cases hmem : key ∈ s.ordering
    · rw [if_pos hmem] at h
      cases hget : dictGet s.data key with
      | none => rw [hget] at h; exact absurd h (by simp)
      | some tok =>
        rw [hget] at h
        dsimp only at h
        split at h
        · exact absurd h (by simp)
        all_goals
          simp only [Except.ok.injEq, Prod.mk.injEq] at h
          obtain ⟨-, rfl⟩ := h
          refine ⟨rfl, rfl, rfl, rfl, rfl, rfl, rfl, rfl, ?_⟩
          intro hd
          exact dictSet_sources s.data key (fun t => { t with trials := t.trials - n }) (fun t => rfl) hd
    · rw [if_neg hmem] at h
      exact absurd h (by simp)
  case fifo =>
    by_cases hmem : key ∈ s.ordering
    · rw [if_pos hmem] at h
      cases hget : dictGet s.data key with
      | none => rw [hget] at h; exact absurd h (by simp)
      | some tok =>
        rw [hget] at h
        dsimp only at h
        split at h
        · simp only [removeKey, Except.map] at h
          rw [if_pos hmem] at h
          simp only [Except.ok.injEq, Prod.mk.injEq] at h
          obtain ⟨-, rfl⟩ := h
          refine ⟨rfl, rfl, rfl, rfl, rfl, rfl, rfl, rfl, ?_⟩
          intro hd
          exact dictSet_sources s.data key (fun t => { t with trials := t.trials - n }) (fun t => rfl) hd
        · simp only [notifyEv, Except.ok.injEq, Prod.mk.injEq] at h
          obtain ⟨-, rfl⟩ := h
          refine ⟨rfl, rfl, rfl, rfl, rfl, rfl, rfl, by simp, ?_⟩
          intro hd
          exact dictSet_sources s.data key (fun t => { t with trials := t.trials - n }) (fun t => rfl) hd
    · rw [if_neg hmem] at h
      exact absurd h (by simp)
  case random draws =>
    by_cases hmem : key ∈ s.ordering
    · rw [if_pos hmem] at h
      cases hget : dictGet s.data key with
      | none => rw [hget] at h; exact absurd h (by simp)
      | some tok =>
        rw [hget] at h
        dsimp only at h
        split at h
        · simp only [removeKey, Except.map] at h
          rw [if_pos hmem] at h
          simp only [Except.ok.injEq, Prod.mk.injEq] at h
          obtain ⟨-, rfl⟩ := h
          refine ⟨rfl, rfl, rfl, rfl, rfl, rfl, rfl, rfl, ?_⟩
          intro hd
          exact dictSet_sources s.data key (fun t => { t with trials := t.trials - n }) (fun t => rfl) hd
        · simp only [notifyEv, Except.ok.injEq, Prod.mk.injEq] at h
          obtain ⟨-, rfl⟩ := h
          refine ⟨rfl, rfl, rfl, rfl, rfl, rfl, rfl, by simp, ?_⟩
          intro hd
          exact dictSet_sources s.data key (fun t => { t with trials := t.trials - n }) (fun t => rfl) hd
    · rw [if_neg hmem] at h
      exact absurd h (by simp)

theorem nextTrial_inv (s : QState) (d : Bool) (s' : QState)
    (hdata : ∀ kt ∈ s.data, kt.2.source ≠ [])
    (h : nextTrial s d = .ok s') :
    s'.fs = s.fs ∧ s'.samples = s.samples ∧ s'.t0q = s.t0q ∧
    s'.paused = s.paused ∧
    (∀ kt ∈ s'.data, kt.2.source ≠ []) ∧
    0 ≤ s'.delaySamples ∧
    (∃ src, s'.source = some src ∧ src ≠ []) ∧
    addedT0s s'.log = addedT0s s.log ++ [curT0 s] := by
  rw [nextTrial] at h
  simp only [Bind.bind, Except.bind] at h
  cases hnk : nextKey s with
  | error e => rw [hnk] at h; exact absurd h (by simp)
  | ok p =>
    obtain ⟨key, s1⟩ := p
    rw [hnk] at h
    dsimp only at h
    obtain ⟨hfs1, hsam1, ht01, hsrc1, hdel1, hpau1, hgen1, hlog1, hdata1⟩ :=
      nextKey_fields s key s1 hnk
    cases hpk : popKey s1 key d with
    | error e => rw [hpk] at h; exact absurd h (by simp)
    | ok q =>
      obtain ⟨tok, s2⟩ := q
      rw [hpk] at h
      dsimp only at h
      rw [popKey] at hpk
      cases hget : dictGet s1.data key with
      | none => rw [hget] at hpk; exact absurd hpk (by simp)
      | some tok' =>
        rw [hget] at hpk
        dsimp only at hpk
        have htokmem : (key, tok') ∈ s.data := hdata1 ▸ dictGet_mem _ _ _ hget
        have htoksrc : tok'.source ≠ [] := hdata _ htokmem
        have hs2 : tok = tok' ∧ s2.fs = s.fs ∧ s2.samples = s.samples ∧
            s2.t0q = s.t0q ∧ s2.paused = s.paused ∧
            addedT0s s2.log = addedT0s s.log ∧
            (∀ kt ∈ s2.data, kt.2.source ≠ []) := by
          cases d with
          | false =>
            simp at hpk
            obtain ⟨rfl, rfl⟩ := hpk
            exact ⟨rfl, hfs1, hsam1, ht01, hpau1, by rw [hlog1],
              by rw [hdata1]; exact hdata⟩
          | true =>
            rw [if_pos rfl] at hpk
            cases hdec : decrementKey s1 key 1 with
            | error e => rw [hdec] at hpk; exact absurd hpk (by simp [Except.map])
            | ok r =>
              obtain ⟨b, s2'⟩ := r
              rw [hdec] at hpk
              simp only [Except.map, Except.ok.injEq, Prod.mk.injEq] at hpk
              obtain ⟨rfl, rfl⟩ := hpk
              obtain ⟨hdfs, hdsam, hdt0, -, -, hdpau, -, hdlog, hddata⟩ :=
                decrementKey_fields s1 key 1 b s2' hdec
              refine ⟨rfl, hdfs.trans hfs1, hdsam.trans hsam1, hdt0.trans ht01,
                hdpau.trans hpau1, ?_, ?_⟩
              · rw [hdlog, hlog1]
              · exact hddata (hdata1 ▸ hdata)
        obtain ⟨rfl, h2fs, h2sam, h2t0, h2pau, h2log, h2data⟩ := hs2
        cases hdn : tok.delays.next with
        | error e => rw [hdn] at h; exact absurd h (by simp)
        | ok dp =>
          obtain ⟨delay, delays'⟩ := dp
          rw [hdn] at h
          dsimp only at h
          split at h
          · exact absurd h (by simp)
          · next hds =>
            simp only [Except.ok.injEq] at h
            subst h
            refine ⟨h2fs, h2sam, h2t0, h2pau, ?_, ?_, ?_, ?_⟩
            · intro kt hkt
              exact dictSet_sources s2.data key
                (fun t => { t with delays := delays' }) (fun t => rfl) h2data kt hkt
            · exact Int.not_lt.mp hds
            · exact ⟨tok.source, rfl, htoksrc⟩
            · show addedT0s (s2.log ++ [.added _]) = addedT0s s.log ++ [curT0 s]
              rw [addedT0s_append, h2log, addedT0s_added]
              show addedT0s s.log ++ [curT0 _] = addedT0s s.log ++ [curT0 s]
              unfold curT0
              rw [show ({ s2 with
                    data := dictSet s2.data key (fun t => { t with delays := delays' }),
                    source := some tok.source,
                    delaySamples := pyRound (delay * s2.fs) } : QState).t0q
                  = s2.t0q from rfl]
              rw [h2fs, h2sam, h2t0]

theorem chain'_append_singleton {l : List ℚ} {a : ℚ}
    (hl : List.Chain' (· < ·) l) (ha : ∀ x ∈ l, x < a) :
    List.Chain' (· < ·) (l ++ [a]) := by
  rw [List.chain'_append]
  refine ⟨hl, List.chain'_singleton a, ?_⟩
  intro x hx y hy
  simp only [List.head?_cons, Option.mem_def, Option.some.injEq] at hy
  subst hy
  obtain ⟨hne, rfl⟩ := List.mem_getLast?_eq_getLast hx
  exact ha _ (List.getLast_mem hne)

theorem hasLiveSource_some (s : QState) (src : List ℚ) (h : s.source = some src) :
    hasLiveSource s = !src.isEmpty := by
  rw [hasLiveSource, h]

theorem hasLiveSource_none (s : QState) (h : s.source = none) :
    hasLiveSource s = false := by
  rw [hasLiveSource, h]

/-- Advancing the sample counter by `k ≥ 1` samples (leaving `fs`, `t0q`,
the announced records and the token store intact) preserves the dispatch
invariant: every announced `t0` falls strictly below the new current time. -/
theorem C7Inv_advance (s t : QState) (k : Nat) (hk : k ≠ 0)
    (hfs : t.fs = s.fs) (hsam : t.samples = s.samples + (k : Int))
    (ht0 : t.t0q = s.t0q) (hlog : addedT0s t.log = addedT0s s.log)
    (hdatas : ∀ kt ∈ t.data, kt.2.source ≠ [])
    (hinv : C7Inv s) : C7Inv t := by
  obtain ⟨hfs0, -, hchain, hbound⟩ := hinv
  have hcur : curT0 s < curT0 t := by
    unfold curT0
    rw [hfs, hsam, ht0]
    push_cast
    rw [add_div]
    have : (0 : ℚ) < (k : ℚ) / s.fs :=
      div_pos (by exact_mod_cast Nat.pos_of_ne_zero hk) hfs0
    linarith
  refine ⟨by rw [hfs]; exact hfs0, hdatas, by rw [hlog]; exact hchain, ?_⟩
  intro x hx
  rw [hlog] at hx
  left
  rcases hbound x hx with h1 | ⟨h2, -⟩
  · exact lt_trans h1 hcur
  · rw [h2]; exact hcur

/-- A step that emits no samples and announces nothing preserves the
invariant provided the pending-work disjunct still holds for the most
recent record. -/
theorem C7Inv_still (s t : QState)
    (hfs : t.fs = s.fs) (hsam : t.samples = s.samples) (ht0 : t.t0q = s.t0q)
    (hlog : addedT0s t.log = addedT0s s.log)
    (hdatas : ∀ kt ∈ t.data, kt.2.source ≠ [])
    (hpend : (hasLiveSource s = true ∨ 0 < s.delaySamples) →
      (hasLiveSource t = true ∨ 0 < t.delaySamples))
    (hinv : C7Inv s) : C7Inv t := by
  obtain ⟨hfs0, -, hchain, hbound⟩ := hinv
  have hcur : curT0 t = curT0 s := by
    unfold curT0
    rw [hfs, hsam, ht0]
  refine ⟨by rw [hfs]; exact hfs0, hdatas, by rw [hlog]; exact hchain, ?_⟩
  intro x hx
  rw [hlog] at hx
  rw [hcur]
  rcases hbound x hx with h1 | ⟨h2, hp⟩
  · exact Or.inl h1
  · exact Or.inr ⟨h2, hpend hp⟩

/-- Setting up the next trial announces one record at exactly the current
time; this preserves the invariant because announcement only happens when
no source and no delay are pending (so every earlier record is strictly in
the past) and it installs a nonempty source. -/
theorem C7Inv_emit (s t : QState)
    (hfs : t.fs = s.fs) (hsam : t.samples = s.samples) (ht0 : t.t0q = s.t0q)
    (hlog : addedT0s t.log = addedT0s s.log ++ [curT0 s])
    (hdatas : ∀ kt ∈ t.data, kt.2.source ≠ [])
    (hlivet : hasLiveSource t = true ∨ 0 < t.delaySamples)
    (hnolive : hasLiveSource s = false) (hnodel : ¬ 0 < s.delaySamples)
    (hinv : C7Inv s) : C7Inv t := by
  obtain ⟨hfs0, -, hchain, hbound⟩ := hinv
  have hcur : curT0 t = curT0 s := by
    unfold curT0
    rw [hfs, hsam, ht0]
  have hxlt : ∀ x ∈ addedT0s s.log, x < curT0 s := by
    intro x hx
    rcases hbound x hx with h1 | ⟨-, hlive | hdel⟩
    · exact h1
    · rw [hnolive] at hlive; cases hlive
    · exact absurd hdel hnodel
  refine ⟨by rw [hfs]; exact hfs0, hdatas, ?_, ?_⟩
  · rw [hlog]
    exact chain'_append_singleton hchain hxlt
  · intro x hx
    rw [hlog] at hx
    rw [hcur]
    rcases List.mem_append.mp hx with hmem | hmem
    · exact Or.inl (hxlt x hmem)
    · simp only [List.mem_singleton] at hmem
      subst hmem
      exact Or.inr ⟨rfl, hlivet⟩

theorem popStep_inv (s : QState) (n : Nat) (dc : Bool) (w : List ℚ) (s' : QState)
    (hn : n ≠ 0) (hinv : C7Inv s) (h : popStep s n dc = .ok (w, s')) :
    C7Inv { s' with samples := s'.samples + (w.length : Int) } := by
  obtain ⟨hfs, hdata, hchain, hbound⟩ := hinv
  have hinv' : C7Inv s := ⟨hfs, hdata, hchain, hbound⟩
  by_cases hp : s.paused
  · simp only [popStep, hp, if_true, Except.ok.injEq, Prod.mk.injEq] at h
    obtain ⟨rfl, rfl⟩ := h
    exact C7Inv_advance s _ n hn rfl (by simp) rfl rfl hdata hinv'
  · cases hsrc : s.source with
    | some src =>
      by_cases hlen : src.length < n
      · simp only [popStep, hp, Bool.false_eq_true, if_false, hsrc, hlen,
          if_true, Except.ok.injEq, Prod.mk.injEq] at h
        obtain ⟨rfl, rfl⟩ := h
        by_cases hnil : src = []
        · subst hnil
          refine C7Inv_still s _ rfl (by simp) rfl rfl hdata ?_ hinv'
          intro hpend
          rcases hpend with hlive | hdel
          · rw [hasLiveSource_some s [] hsrc] at hlive
            simp at hlive
          · exact Or.inr hdel
        · exact C7Inv_advance s _ src.length (by simpa using hnil) rfl rfl rfl
            rfl hdata hinv'
      · simp only [popStep, hp, Bool.false_eq_true, if_false, hsrc, hlen,
          Except.ok.injEq, Prod.mk.injEq] at h
        obtain ⟨rfl, rfl⟩ := h
        refine C7Inv_advance s _ (src.take n).length ?_ rfl rfl rfl rfl hdata hinv'
        simp only [List.length_take]
        omega
    | none =>
      by_cases hd : s.delaySamples > 0
      · simp only [popStep, hp, Bool.false_eq_true, if_false, hsrc, hd, if_true,
          Except.ok.injEq, Prod.mk.injEq] at h
        obtain ⟨rfl, rfl⟩ := h
        refine C7Inv_advance s _
          (List.replicate (min s.delaySamples (n : Int)).toNat (0 : ℚ)).length
          ?_ rfl rfl rfl rfl hdata hinv'
        simp only [List.length_replicate]
        omega
      · cases hnt : nextTrial s dc with
        | error e =>
          simp only [popStep, hp, Bool.false_eq_true, if_false, hsrc, hd, hnt,
            Except.map] at h
          exact absurd h (by simp)
        | ok s2 =>
          simp only [popStep, hp, Bool.false_eq_true, if_false, hsrc, hd, hnt,
            Except.map, Except.ok.injEq, Prod.mk.injEq] at h
          obtain ⟨rfl, rfl⟩ := h
          obtain ⟨hfs2, hsam2, ht02, hpau2, hdata2, hdel2, ⟨src, hsrc2, hsrcne⟩,
            hlog2⟩ := nextTrial_inv s dc s2 hdata hnt
          refine C7Inv_emit s _ hfs2 (by simpa using hsam2) ht02
            (by simpa using hlog2) hdata2 ?_ (hasLiveSource_none s hsrc) hd hinv'
          left
          have ht : ({ s2 with
              samples := s2.samples + (([] : List ℚ).length : Int) } : QState).source
              = some src := hsrc2
          rw [hasLiveSource_some _ src ht]
          simpa using hsrcne

theorem popBufferLoop_inv (fuel : Nat) :
    ∀ (s : QState) (n : Nat) (dc : Bool) (w : List ℚ) (s' : QState),
    C7Inv s → popBufferLoop fuel s n dc = some (.ok (w, s')) → C7Inv s' := by
  induction fuel with
  | zero => intro s n dc w s' _ h; simp [popBufferLoop] at h
  | succ fuel ih =>
    intro s n dc w s' hinv h
    rw [popBufferLoop] at h
    by_cases hn : n = 0
    · rw [if_pos hn] at h
      simp only [Option.some.injEq, Except.ok.injEq, Prod.mk.injEq] at h
      obtain ⟨-, rfl⟩ := h
      exact hinv
    · rw [if_neg hn] at h
      cases hstep : popStep s n dc with
      | error e =>
        rw [hstep] at h
        cases e with
        | queueEmpty =>
          simp only [Option.some.injEq, Except.ok.injEq, Prod.mk.injEq] at h
          obtain ⟨-, rfl⟩ := h
          exact C7Inv_advance s _ n hn rfl rfl rfl rfl hinv.2.1 hinv
        | keyError m => simp at h
        | valueError m => simp at h
        | typeError m => simp at h
        | stopIteration => simp at h
        | indexError => simp at h
        | zeroDivision => simp at h
      | ok p =>
        obtain ⟨w0, s0⟩ := p
        rw [hstep] at h
        dsimp only at h
        have hinv0 := popStep_inv s n dc w0 s0 hn hinv hstep
        cases hrec : popBufferLoop fuel { s0 with samples := s0.samples + w0.length }
            (n - w0.length) dc with
        | none => rw [hrec] at h; exact absurd h (by simp)
        | some r =>
          cases r with
          | error e => rw [hrec] at h; exact absurd h (by simp)
          | ok q =>
            obtain ⟨ws, s2⟩ := q
            rw [hrec] at h
            simp only [Option.some.injEq, Except.ok.injEq, Prod.mk.injEq] at h
            obtain ⟨-, rfl⟩ := h
            exact ih _ _ _ _ _ hinv0 hrec

theorem runPops_inv (fuel : Nat) (ns : List Nat) :
    ∀ (s : QState) (bufs : List (List ℚ)) (s' : QState),
    C7Inv s → runPops fuel s ns = some (.ok (bufs, s')) → C7Inv s' := by
  induction ns with
  | nil =>
    intro s bufs s' hinv h
    simp only [runPops, Option.some.injEq, Except.ok.injEq, Prod.mk.injEq] at h
    obtain ⟨-, rfl⟩ := h
    exact hinv
  | cons n ns ih =>
    intro s bufs s' hinv h
    rw [runPops] at h
    cases hpb : popBuffer fuel s n true with
    | none => rw [hpb] at h; exact absurd h (by simp)
    | some r =>
      cases r with
      | error e => rw [hpb] at h; exact absurd h (by simp)
      | ok p =>
        obtain ⟨b, s1⟩ := p
        rw [hpb] at h
        dsimp only at h
        have hinv1 : C7Inv s1 := by
          by_cases hn : n = 0
          · rw [popBuffer, if_pos hn] at hpb
            exact absurd hpb (by simp)
          · rw [popBuffer, if_neg hn] at hpb
            exact popBufferLoop_inv fuel s n true b s1 hinv hpb
        cases hrec : runPops fuel s1 ns with
        | none => rw [hrec] at h; exact absurd h (by simp)
        | some r2 =>
          cases r2 with
          | error e => rw [hrec] at h; exact absurd h (by simp)
          | ok q =>
            obtain ⟨bs, s2⟩ := q
            rw [hrec] at h
            simp only [Option.some.injEq, Except.ok.injEq, Prod.mk.injEq] at h
            obtain ⟨-, rfl⟩ := h
            exact ih s1 bs s2 hinv1 hrec

/-- C7 (amended): over any dispatch session consisting of `pop_buffer`
calls — no `rewind_samples`, i.e. no timed `pause`/`resume` — on a queue
whose sampling rate is positive and whose tokens all carry nonempty
sources, the TrialRecords announced via the `added` event have strictly
increasing `t0` in emission order.  (With rewinds the property fails; see
the counterexample.) -/
theorem trial_records_t0_increasing (fuel : Nat) (s : QState) (ns : List Nat)
    (bufs : List (List ℚ)) (s' : QState) (hinv : C7Inv s)
    (h : runPops fuel s ns = some (.ok (bufs, s'))) :
    List.Chain' (· < ·) (addedT0s s'.log) :=
  (runPops_inv fuel ns s bufs s' hinv h).2.2.1

theorem c7Start_inv : C7Inv c7Start := by
  refine ⟨by norm_num [c7Start], ?_, ?_, ?_⟩
  · intro kt hkt
    simp only [c7Start, List.mem_singleton] at hkt
    subst hkt
    simp
  · simp [c7Start, addedT0s]
  · intro x hx
    simp [c7Start, addedT0s] at hx

theorem c7Start_run :
    runPops 10 c7Start [2] = some (.ok ([[7, 8]], c7WFinal)) := by
  norm_num [runPops, popBuffer, popBufferLoop, popStep, nextTrial, nextKey,
    popKey, decrementKey, removeKey, dictGet, dictSet, notifyEv, curT0,
    Delays.next, pyRound, c7Start, c7WFinal, Bind.bind, Except.bind,
    Except.map, List.replicate]

/-- Witness for C7 (amended): the `pop_buffer(2)` session on `c7Start`
leaves a strictly increasing `added` log. -/
theorem trial_records_t0_increasing_witness :
    List.Chain' (· < ·) (addedT0s c7WFinal.log) :=
  trial_records_t0_increasing 10 c7Start [2] [[7, 8]] c7WFinal c7Start_inv
    c7Start_run

end Psiaudio
